import Mathlib

/-!
Verification of the oto-to-segment converter (CVVC pipeline).

This file is a shallow embedding, over `ℚ`-valued times and Lean `String`s,
of the functions of `src/functions.py` and `src/oto2seg_cvvc.py` that the
claims concern: the per-line anchor normalization of `read_oto`, the
boundary quantization `quantize_boundary`, the `SegmentInfo` value type and
its `replace_phoneme`, the coverage-completion search, the transition-list
artifact, the cv-branch boundary derivation, the emitter's time re-basing,
and the alias classifier `get_oto_entry_phoneme_info`.

Python floats are modelled as rationals; Python lists as Lean lists;
functions that may raise return `Except String`; a Python function that can
return an object with attributes never assigned models those attributes as
`Option` fields.
-/

namespace Oto2Seg

/-- One record of the pronunciation index after normalization, as built by
`read_oto` (`src/functions.py`, class `OtoInfo`). All times in milliseconds. -/
structure OtoInfo where
  aliasName : String
  offset : ℚ
  consonant : ℚ
  cutoff : ℚ
  preutterance : ℚ
  overlap : ℚ
deriving DecidableEq

/-- The per-line anchor normalization of `read_oto` (`src/functions.py`
lines 56-79): `consonant`, `preutterance` and `overlap` are made absolute by
adding `offset` and clamping at 0, and the sign-dependent `cutoff` rule of
lines 67-70 is applied (`wav_length` is the referenced clip's duration in
milliseconds, computed from the wav header before this point). -/
def read_oto_line (wav_length : ℚ) (aliasName : String)
    (offset consonant cutoff preutterance overlap : ℚ) : OtoInfo :=
  let consonant := max (offset + consonant) 0
  let preutterance := max (offset + preutterance) 0
  let overlap := max (offset + overlap) 0
  let cutoff :=
    if cutoff > 0 then max (consonant + 1/10) (wav_length - offset)
    else min wav_length (offset + (-1 * cutoff))
  ⟨aliasName, offset, consonant, cutoff, preutterance, overlap⟩

/-! ## Boundary quantization (`quantize_boundary`, src/oto2seg_cvvc.py lines 124-140) -/

/-- `math.floor(x / 1000 * sample_rate) * 1000 / sample_rate` at 44100 Hz. -/
def floorToSample (x : ℚ) : ℚ := (⌊x / 1000 * 44100⌋ : ℚ) * 1000 / 44100

/-- `math.ceil(x / 1000 * sample_rate) * 1000 / sample_rate` at 44100 Hz. -/
def ceilToSample (x : ℚ) : ℚ := (⌈x / 1000 * 44100⌉ : ℚ) * 1000 / 44100

/-- The body of the first loop of `quantize_boundary` (lines 127-133): the
first boundary is rounded down to the sample grid, the last rounded up, and
interior ones rounded down (`n` is the total number of boundaries, `i` the
index). Note the `i = 0` test comes first, exactly as in the source, so for a
singleton list the first branch wins. -/
def roundBoundary (n i : ℕ) (b : ℚ) : ℚ :=
  if i = 0 then floorToSample b
  else if i = n - 1 then ceilToSample b
  else floorToSample b

/-- The first loop of `quantize_boundary`: each iteration `i` overwrites
`boundaries[i]` from its own not-yet-modified value, so the in-place loop is
a map over positions; `i` is the position of the head of the remaining list. -/
def roundFrom (n : ℕ) : ℕ → List ℚ → List ℚ
  | _, [] => []
  | i, b :: rest => roundBoundary n i b :: roundFrom n (i + 1) rest

/-- One step of the minimum-duration loop of `quantize_boundary`
(lines 136-138): if `boundaries[i] - boundaries[i-1] < min_length` then
`boundaries[i-1] = boundaries[i] - min_length` with `min_length = 10`. -/
def minDurStep (bs : List ℚ) (i : ℕ) : List ℚ :=
  if bs.getD i 0 - bs.getD (i - 1) 0 < 10 then bs.set (i - 1) (bs.getD i 0 - 10) else bs

/-- The second loop of `quantize_boundary` (lines 135-138), literally:
`for i in range(1, n_boundary)` applying `minDurStep` in place. -/
def minDurPass (bs : List ℚ) : List ℚ :=
  (List.range' 1 (bs.length - 1)).foldl minDurStep bs

/-- `quantize_boundary` (src/oto2seg_cvvc.py lines 124-140) over rationals:
the rounding loop followed by the single left-to-right minimum-duration
loop. -/
def quantize_boundary (boundaries : List ℚ) : List ℚ :=
  minDurPass (roundFrom boundaries.length 0 boundaries)


/-- The value the minimum-duration loop leaves at position `j`: each step
`i` of the loop reads `boundaries[i]` and `boundaries[i-1]` before either has
been modified (step `i` is the only one writing position `i-1`), so the final
value at `j` depends only on the rounded values at `j` and `j + 1`. -/
def minDurSpec (r : List ℚ) (j : ℕ) : ℚ :=
  if j + 1 < r.length ∧ r.getD (j + 1) 0 - r.getD j 0 < 10 then r.getD (j + 1) 0 - 10
  else r.getD j 0

/-! ## Segment data model (src/oto2seg_cvvc.py lines 65-110) -/

/-- `ArticulationSegmentInfo` (src/oto2seg_cvvc.py lines 65-68). -/
structure ArticulationSegmentInfo where
  type : String
  phonemes : List String
  boundaries : List ℚ
deriving DecidableEq

/-- `SegmentInfo` (src/oto2seg_cvvc.py lines 70-74): the flat phoneme/time
list stores `[name, begin, end]` triples as built by
`generate_articulation_segment_info`. -/
structure SegmentInfo where
  wav_offset : ℚ
  wav_cutoff : ℚ
  phoneme_list : List (String × ℚ × ℚ)
  art_seg_list : List ArticulationSegmentInfo
deriving DecidableEq

/-- The atom relabeling of `SegmentInfo.replace_phoneme` applied to one name
(lines 101-102 and 107-108): if the name is in `old_phonemes`, it is replaced
by the entry of `new_phonemes` at the same index. -/
def substAtom (old new : List String) (s : String) : String :=
  if s ∈ old then new.getD (old.indexOf s) s else s

/-- `SegmentInfo.replace_phoneme` (src/oto2seg_cvvc.py lines 96-110) as a
value-level transformation: the source first takes an element-wise `copy()`
and then relabels atoms in the copy's flat phoneme/time list and in every
articulation segment's atom list. (The heap-level model of the same method,
for the aliasing claim, is `PyHeap.replace_phoneme_heap` below.) -/
def SegmentInfo.replace_phoneme (seg : SegmentInfo) (old new : List String) : SegmentInfo :=
  { wav_offset := seg.wav_offset
    wav_cutoff := seg.wav_cutoff
    phoneme_list := seg.phoneme_list.map fun p => (substAtom old new p.1, p.2.1, p.2.2)
    art_seg_list := seg.art_seg_list.map fun a =>
      { type := a.type
        phonemes := a.phonemes.map (substAtom old new)
        boundaries := a.boundaries } }


/-! ## Transition-list artifact (`generate_articulation_trans_file`, lines 293-305) -/

/-- `generate_articulation_trans_file` of the CVVC converter
(src/oto2seg_cvvc.py lines 293-305): the first line is the space-joined
phoneme names; then `for i in range(0, len(seg_info) - 1)` appends one
bracketed pair line per adjacent position. Built with the source's literal
index loops over `range`. -/
def generate_articulation_trans_file (seg_info : List (String × ℚ × ℚ)) : String :=
  let phoneme_list := (List.range seg_info.length).map fun i => (seg_info.getD i ("", 0, 0)).1
  let content := [String.intercalate " " phoneme_list]
  let pairs := (List.range (seg_info.length - 1)).map fun i =>
    "[" ++ (seg_info.getD i ("", 0, 0)).1 ++ " " ++ (seg_info.getD (i + 1) ("", 0, 0)).1 ++ "]"
  String.intercalate "\n" (content ++ pairs)

/-! ## The cv branch of the boundary deriver (lines 209-229) -/

/-- Modelled from the spec: the fixed set of plosive consonants used by the
boundary deriver's edge policy (spec 4.2: "'plosive' membership is a fixed
consonant set"). The file `phoneme.py`, which defines
`plosive_consonant_list`, is not part of the repository snapshot, so the set
is taken as the plosive consonants (plain and palatalized stops) of the
Japanese X-SAMPA inventory the converter uses. -/
def plosive_consonant_list : List String :=
  ["k", "k'", "g", "g'", "t", "t'", "d", "d'", "p", "p'", "b", "b'"]

/-- The `cv` branch of `generate_articulation_segment_info`
(src/oto2seg_cvvc.py lines 209-229), for an entry whose resolved atoms are
`p0` (the consonant, `phoneme_list[0]`) and `p1` (the vowel,
`phoneme_list[1]`): the consonant start is the overlap anchor for plosive
consonants, else the midpoint of offset and overlap when
`overlap > offset`, else the offset. -/
def generate_articulation_segment_info_cv (p0 p1 : String) (oto : OtoInfo) : SegmentInfo :=
  let consonant := p0
  let consonant_start :=
    if consonant ∈ plosive_consonant_list then oto.overlap
    else if oto.overlap > oto.offset then oto.offset + ((oto.overlap - oto.offset) / 2)
    else oto.offset
  { wav_offset := oto.offset
    wav_cutoff := oto.cutoff
    phoneme_list :=
      [(p0, consonant_start, oto.preutterance), (p1, oto.preutterance, oto.consonant)]
    art_seg_list :=
      [{ type := "cv"
         phonemes := [p0, p1]
         boundaries := quantize_boundary [consonant_start, oto.preutterance, oto.consonant] }] }


/-! ## Coverage completion (src/functions.py lines 304-334, src/oto2seg_cvvc.py lines 421-434, 494-508) -/

/-- The order-preserving deduplication loop of `get_vowel_variants` /
`get_consonant_variants` (src/functions.py lines 312-316 and 328-332): keep
the first occurrence of each atom. -/
def pyDedup (l : List String) : List String :=
  l.foldl (fun acc x => if x ∈ acc then acc else acc ++ [x]) []

/-- `get_vowel_variants` (src/functions.py lines 304-318): the atom itself
followed by every variant group containing it, deduplicated keeping first
occurrences. Modelled from the spec: the table `vowel_variant_list` is
defined in `phoneme.py`, which is not part of the repository snapshot (spec
2 calls it one of "two equivalence tables ... used for fallback search"),
so the table is passed as the parameter `vowel_variant_list`. -/
def get_vowel_variants (vowel_variant_list : List (List String)) (vowel : String) :
    List String :=
  pyDedup ([vowel] ++ (vowel_variant_list.filter (fun vl => vowel ∈ vl)).flatten)

/-- `get_consonant_variants` (src/functions.py lines 320-334), same shape as
`get_vowel_variants`. Modelled from the spec: `consonant_variant_list` also
lives in the absent `phoneme.py` and is passed as a parameter. -/
def get_consonant_variants (consonant_variant_list : List (List String)) (consonant : String) :
    List String :=
  pyDedup ([consonant] ++ (consonant_variant_list.filter (fun cl => consonant ∈ cl)).flatten)

/-- Python `s.split(" ", 1)` unpacked into two parts: the text before the
first space and everything after it. -/
def pySplit1 (s : String) : String × String :=
  (String.mk (s.data.takeWhile (fun c => c ≠ ' ')),
   String.mk ((s.data.dropWhile (fun c => c ≠ ' ')).drop 1))

/-- `find_alternative_vc` (src/oto2seg_cvvc.py lines 421-434): nested search
with consonant variants in the outer loop and vowel variants in the inner
loop; the first candidate key present in `vc_hit_list` is returned, and ""
when none is. -/
def find_alternative_vc (vtbl ctbl : List (List String)) (vc_name : String)
    (vc_hit_list : List String) : String :=
  let vc := pySplit1 vc_name
  let vowel_variants := get_vowel_variants vtbl vc.1
  let consonant_variants := get_consonant_variants ctbl vc.2
  match (consonant_variants.flatMap fun ac => vowel_variants.map fun av => av ++ " " ++ ac).find?
      (fun cand => cand ∈ vc_hit_list) with
  | some cand => cand
  | none => ""

/-- The per-missing-VC completion step of `generate_articulation_from_oto`
(src/oto2seg_cvvc.py lines 494-508): find a substitute key; when one exists,
take the donor `SegmentInfo` from the coverage map (modelled as an
association list) and relabel via
`replace_phoneme([alternative_c], [consonant])` — only the substitute
consonant atom is passed to the relabeling. `none` models the
warning-and-skip path. -/
def generate_missing_vc (vtbl ctbl : List (List String))
    (cvvc_map : List (String × SegmentInfo)) (vc_name : String) : Option SegmentInfo :=
  let vc := pySplit1 vc_name
  let alternative_vc := find_alternative_vc vtbl ctbl vc_name (cvvc_map.map Prod.fst)
  if alternative_vc ≠ "" then
    match cvvc_map.find? (fun e => e.1 = alternative_vc) with
    | some e => some (e.2.replace_phoneme [(pySplit1 alternative_vc).2] [vc.2])
    | none => none
  else none

/-- A donor segment for the completion counterexample: a recorded `i k`
unit whose vowel atom is `i`. -/
def donorSegIK : SegmentInfo :=
  { wav_offset := 0
    wav_cutoff := 30
    phoneme_list := [("i", 0, 10), ("k", 10, 20)]
    art_seg_list :=
      [{ type := "vc"
         phonemes := ["i", "k"]
         boundaries := [0, 10, 20] }] }


/-! ## Alias classifier (src/functions.py lines 19-29, 96-118, 149-302) -/

/-- `JPhonemeMapItem` (src/functions.py lines 19-23): one entry of the
phoneme dictionary `hiragana.json`. The dictionary data file is not part of
the repository snapshot, so every lookup below takes the loaded map as a
parameter. -/
structure JPhonemeMapItem where
  kana : String
  romaji : String
  phoneme : List String
  type : String
deriving DecidableEq

/-- `get_hiragana_info` (src/functions.py lines 96-103): the first map entry
whose kana form equals the argument. -/
def get_hiragana_info (m : List JPhonemeMapItem) (hiragana : String) :
    Option JPhonemeMapItem :=
  m.find? (fun item => item.kana = hiragana)

/-- `get_romaji_info` (src/functions.py lines 105-112). -/
def get_romaji_info (m : List JPhonemeMapItem) (romaji : String) :
    Option JPhonemeMapItem :=
  m.find? (fun item => item.romaji = romaji)

/-- `xsampa_is_vowel` (src/functions.py lines 117-118). -/
def xsampa_is_vowel (xsampa : String) : Bool :=
  xsampa ∈ ["a", "i", "M", "e", "o", "N\\"]

/-- The regex character class `[ぁ-ゔァ-・]` (two Unicode ranges). -/
def isKanaChar (c : Char) : Bool :=
  (decide ('ぁ' ≤ c) && decide (c ≤ 'ゔ')) || (decide ('ァ' ≤ c) && decide (c ≤ '・'))

/-- The regex character class `[aiueoN]`. -/
def isVowelChar1 (c : Char) : Bool := decide (c ∈ ['a', 'i', 'u', 'e', 'o', 'N'])

/-- The regex character class `[aiueonN]`. -/
def isVowelChar2 (c : Char) : Bool := decide (c ∈ ['a', 'i', 'u', 'e', 'o', 'n', 'N'])

/-- The regex character class `[あいうえおんアイウエオン]`. -/
def isKanaVowelChar (c : Char) : Bool :=
  decide (c ∈ ['あ', 'い', 'う', 'え', 'お', 'ん', 'ア', 'イ', 'ウ', 'エ', 'オ', 'ン'])

/-- The regex character class `[aiueo]`. -/
def isAiueoChar (c : Char) : Bool := decide (c ∈ ['a', 'i', 'u', 'e', 'o'])

/-- The regex character class `[a-zA-Z ]` (`Char.isAlpha` is exactly
`[a-zA-Z]`). -/
def isLatinSpaceChar (c : Char) : Bool := c.isAlpha || c == ' '

/-- `re.match(r"[0-9]+$", s)`: anchored at the start by `re.match` and at
the end by `$`, this matches exactly when the whole alias is one or more
digits. -/
def matchAllDigits (s : String) : Bool := !s.data.isEmpty && s.data.all Char.isDigit

/-- `re.match(r"^([ぁ-ゔァ-・]+)$", s)`. -/
def matchAllKana (s : String) : Bool := !s.data.isEmpty && s.data.all isKanaChar

/-- `re.match(r"^([aiueonN])$", s)`. -/
def matchSingleVowel2 (s : String) : Bool :=
  match s.data with
  | [c] => isVowelChar2 c
  | _ => false

/-- `re.match(r"^([aiueoN]) ([aiueoN]|[あいうえおんアイウエオン])$", s)`. -/
def matchVV (s : String) : Bool :=
  match s.data with
  | [c1, sp, c2] => isVowelChar1 c1 && sp == ' ' && (isVowelChar1 c2 || isKanaVowelChar c2)
  | _ => false

/-- `re.match(r"^n ([あいうえおんアイウエオン])$", s)`. -/
def matchNV (s : String) : Bool :=
  match s.data with
  | [c1, sp, c2] => c1 == 'n' && sp == ' ' && isKanaVowelChar c2
  | _ => false

/-- `re.match(r"^([aiueoN]) ([a-zA-Z]+[aiueo]|[ぁ-ゔァ-・])$", s)`: a vowel
token, a space, then either a Latin string of length at least two ending in
one of `aiueo` (one-or-more Latin characters and then one of `aiueo`) or a
single kana character. -/
def matchVCV (s : String) : Bool :=
  match s.data with
  | c1 :: sp :: rest =>
      isVowelChar1 c1 && sp == ' ' &&
        ((decide (2 ≤ rest.length) && rest.all Char.isAlpha &&
            (match rest.getLast? with | some c => isAiueoChar c | none => false)) ||
          (match rest with | [k] => isKanaChar k | _ => false))
  | _ => false

/-- `re.match(r"^([aiueonN]) ([a-zA-Z]+)$", s)`. -/
def matchVC (s : String) : Bool :=
  match s.data with
  | c1 :: sp :: rest =>
      isVowelChar2 c1 && sp == ' ' && !rest.isEmpty && rest.all Char.isAlpha
  | _ => false

/-- `re.match(r"^n ([aiueo])$", s)`, the exclusion tested together with the
V-C pattern. -/
def matchNAiueo (s : String) : Bool :=
  match s.data with
  | [c1, sp, c2] => c1 == 'n' && sp == ' ' && isAiueoChar c2
  | _ => false

/-- `re.match(r"^([a-zA-Z ]+ ?[aiueonN]|[ぁ-ゔァ-・]+)$", s)`: either a string
over Latin letters and spaces, of length at least two, whose last character
is one of `aiueonN` (the optional space is itself in the leading class), or
a non-empty all-kana string. -/
def matchCV (s : String) : Bool :=
  (decide (2 ≤ s.data.length) && s.data.all isLatinSpaceChar &&
    (match s.data.getLast? with | some c => isVowelChar2 c | none => false)) ||
  matchAllKana s

/-- `re.match(r"^[a-zA-Z ]+$", s)`, the romaji-vs-kana test inside the C-V
branch. -/
def matchLatinSpace (s : String) : Bool := !s.data.isEmpty && s.data.all isLatinSpaceChar

/-- Python `s.replace(" ", "")`. -/
def removeSpaces (s : String) : String := String.mk (s.data.filter (fun c => c != ' '))

/-- Python `s.strip()` (trim whitespace at both ends), via the character
list. -/
def pyStrip (s : String) : String :=
  String.mk (((s.data.dropWhile Char.isWhitespace).reverse.dropWhile Char.isWhitespace).reverse)

/-- The nasal-coda resolution of the V-C branch (src/functions.py lines
263-277): when the resolved vowel atom is the placeholder `N\`, it is
rewritten according to the following consonant's phoneme by the fixed
table; consonants in none of the table's rows leave the placeholder
unchanged, and a vowel atom other than the placeholder is returned
unchanged. -/
def vc_nasal_variant (vowel_phoneme consonant_phoneme : String) : String :=
  if vowel_phoneme = "N\\" then
    if consonant_phoneme ∈ ["n", "d", "d'", "t", "t'", "4", "4'", "dz", "dZ", "ts", "tS"] then "n"
    else if consonant_phoneme ∈ ["m", "m'", "p", "p'", "b", "b'"] then "m"
    else if consonant_phoneme ∈ ["g", "k"] then "N"
    else if consonant_phoneme = "J" then "J"
    else if consonant_phoneme ∈ ["g'", "k'"] then "N'"
    else vowel_phoneme
  else vowel_phoneme

/-- `OtoEntryPhonemeInfo` (src/functions.py lines 25-29). Python assigns
these attributes branch by branch; an attribute never assigned is modelled
as `none`. -/
structure OtoEntryPhonemeInfo where
  type : Option String
  phoneme_info_list : Option (List JPhonemeMapItem)
  phoneme_list : Option (List String)
  is_alternative : Option Bool
deriving DecidableEq

/-- `get_oto_entry_phoneme_info` (src/functions.py lines 149-302) over the
dictionary `m`. `.error msg` models a raised exception (including the
`IndexError` of indexing an empty alias: a fully numeric alias is emptied by
the digit-stripping step, and `re.match(r"[0-9]+$", ...)` anchored at the
start matches only fully numeric aliases); `.ok none` models the literal
`return None` of the Romaji R-C-V branch (line 185); `.ok (some info)`
models returning the `ret` object, possibly with unset attributes as in the
V-C-V branch whose body is `pass  # TODO` (lines 250-251). -/
def get_oto_entry_phoneme_info (m : List JPhonemeMapItem) (alias0 : String) :
    Except String (Option OtoEntryPhonemeInfo) :=
  let isAlt := matchAllDigits alias0
  let item_alias := if isAlt then "" else alias0
  let altField : Option Bool := if isAlt then some true else none
  match item_alias.data with
  | [] => .error "IndexError: string index out of range"
  | c0 :: ctail =>
    if c0 = '-' then
      let rest := pyStrip (String.mk ctail)
      if matchAllKana rest then
        match get_hiragana_info m (removeSpaces rest) with
        | none => .error "[Hiragana R-C-V] Could not find phoneme info"
        | some phoneme_info =>
          if phoneme_info.phoneme.length = 1 then
            if xsampa_is_vowel (phoneme_info.phoneme.getD 0 "") then
              .ok (some ⟨some "rv", some [phoneme_info], some phoneme_info.phoneme, altField⟩)
            else
              .ok (some ⟨some "rc", some [phoneme_info], some phoneme_info.phoneme, altField⟩)
          else
            .ok (some ⟨some "rcv", some [phoneme_info], some phoneme_info.phoneme, altField⟩)
      else
        match get_romaji_info m (removeSpaces rest) with
        | none => .ok none
        | some phoneme_info =>
          if phoneme_info.phoneme.length = 1 then
            if xsampa_is_vowel (phoneme_info.phoneme.getD 0 "") then
              .ok (some ⟨some "rv", some [phoneme_info], some phoneme_info.phoneme, altField⟩)
            else
              .ok (some ⟨some "rc", some [phoneme_info], some phoneme_info.phoneme, altField⟩)
          else if phoneme_info.phoneme.length = 2 then
            .ok (some ⟨some "rcv", some [phoneme_info], some phoneme_info.phoneme, altField⟩)
          else
            .error "[Romaji R-C] Invalid phoneme info"
    else if (c0 :: ctail).getLast? = some '-' then
      let rest := pyStrip (String.mk (c0 :: ctail).dropLast)
      if matchSingleVowel2 rest then
        match get_romaji_info m (removeSpaces rest) with
        | none => .error "[Romaji VR] Could not find phoneme info"
        | some phoneme_info =>
          if phoneme_info.phoneme.length = 1 then
            .ok (some ⟨some "vr", some [phoneme_info], some phoneme_info.phoneme, altField⟩)
          else
            .error "[Romaji VR] Invalid phoneme info"
      else
        .error "[Romaji VR] Invalid phoneme info"
    else if matchVV item_alias then
      match item_alias.data with
      | c1 :: _ :: c2 :: _ =>
        let first_vowel_info := get_romaji_info m (String.mk [c1])
        let second_vowel_info :=
          if isVowelChar1 c2 then get_romaji_info m (String.mk [c2])
          else get_hiragana_info m (String.mk [c2])
        match first_vowel_info, second_vowel_info with
        | some fi, some si =>
          .ok (some ⟨some "vv", some [fi, si], some (fi.phoneme ++ si.phoneme), altField⟩)
        | _, _ => .error "[Romaji VV] Could not find phoneme info"
      | _ => .error "[Romaji VV] Could not find phoneme info"
    else if matchNV item_alias then
      match item_alias.data with
      | _ :: _ :: c2 :: _ =>
        match get_hiragana_info m "ん", get_hiragana_info m (String.mk [c2]) with
        | some n_info, some vowel_info =>
          .ok (some ⟨some "vv", some [n_info, vowel_info],
            some (n_info.phoneme ++ vowel_info.phoneme), altField⟩)
        | _, _ => .error "[Romaji NV] Could not find phoneme info"
      | _ => .error "[Romaji NV] Could not find phoneme info"
    else if matchVCV item_alias then
      .ok (some ⟨none, none, none, altField⟩)
    else if matchVC item_alias && !matchNAiueo item_alias then
      match item_alias.data with
      | c1 :: _ :: rest =>
        match get_romaji_info m (String.mk [c1]), get_romaji_info m (String.mk rest) with
        | some vowel_info, some consonant_info =>
          match vowel_info.phoneme, consonant_info.phoneme with
          | vp :: _, cp :: _ =>
            let vowel_info2 := { vowel_info with phoneme := [vc_nasal_variant vp cp] }
            .ok (some ⟨some "vc", some [vowel_info2, consonant_info],
              some (vowel_info2.phoneme ++ consonant_info.phoneme), altField⟩)
          | _, _ => .error "IndexError: list index out of range"
        | _, _ => .error "[Romaji VC] Could not find phoneme info"
      | _ => .error "[Romaji VC] Could not find phoneme info"
    else if matchCV item_alias then
      if matchLatinSpace item_alias then
        match get_romaji_info m (removeSpaces item_alias) with
        | none => .error "[Romaji CV] Could not find phoneme info"
        | some phoneme_info =>
          .ok (some ⟨some "cv", some [phoneme_info], some phoneme_info.phoneme, altField⟩)
      else
        match get_hiragana_info m (removeSpaces item_alias) with
        | none => .error "[Romaji CV] Could not find phoneme info"
        | some phoneme_info =>
          .ok (some ⟨some "cv", some [phoneme_info], some phoneme_info.phoneme, altField⟩)
    else
      .error "[Unknown Type] Invalid phoneme info"

/-- None of the dispatch patterns of `get_oto_entry_phoneme_info` matches
the (digit-stripped) alias. An empty stripped alias matches no branch
either. -/
def matchesNoBranch (alias0 : String) : Bool :=
  let item_alias := if matchAllDigits alias0 then "" else alias0
  match item_alias.data with
  | [] => true
  | c0 :: ctail =>
      !(decide (c0 = '-')) && !(decide ((c0 :: ctail).getLast? = some '-')) &&
      !matchVV item_alias && !matchNV item_alias && !matchVCV item_alias &&
      !(matchVC item_alias && !matchNAiueo item_alias) && !matchCV item_alias

/-- A minimal dictionary for the nasal-rewriting counterexample and witness:
the nasal vowel `N` resolving to the placeholder, and two consonants. -/
def nasalTestMap : List JPhonemeMapItem :=
  [⟨"ん", "N", ["N\\"], "vowel"⟩,
   ⟨"", "gy", ["g'"], "consonant"⟩,
   ⟨"", "k", ["k"], "consonant"⟩]


/-! ## Heap model of `SegmentInfo.copy` and `replace_phoneme`
(src/oto2seg_cvvc.py lines 76-110)

The frame/aliasing claim about `replace_phoneme` is about Python object
identity, so the two methods are modelled once more at the level of an
explicit heap: every Python list is a numbered cell, an `ArticulationSegmentInfo`
dict is a cell holding its type tag and the addresses of its two list cells,
and a `SegmentInfo` object carries its two float attributes and the
addresses of its `phoneme_list` and `art_seg_list` cells. Allocation
appends to the heap, so fresh cells get addresses at and above the old
length. -/

/-- A value stored in a Python list cell: a string, a float, or a reference
to another heap cell. -/
inductive PyVal where
  | s (v : String)
  | q (v : ℚ)
  | ref (a : ℕ)
deriving DecidableEq

/-- A heap cell: a Python list, or one articulation-segment dict whose
`phonemes` and `boundaries` entries are the addresses of two list cells. -/
inductive HObj where
  | plist (elems : List PyVal)
  | artseg (ty : String) (phonemes : ℕ) (boundaries : ℕ)
deriving DecidableEq

/-- The heap: the cell at address `a` is `h[a]?`. -/
abbrev Heap := List HObj

/-- Allocate a fresh cell: returns the new heap and the new address. -/
def halloc (h : Heap) (o : HObj) : Heap × ℕ := (h ++ [o], h.length)

/-- A `SegmentInfo` Python object. -/
structure PySegObj where
  wav_offset : ℚ
  wav_cutoff : ℚ
  phoneme_list : ℕ
  art_seg_list : ℕ
deriving DecidableEq

/-- The addresses held by `ref` values of a cell's element list. -/
def refAddrs (vs : List PyVal) : List ℕ :=
  vs.filterMap fun v => match v with | PyVal.ref a => some a | _ => none

/-- `for phoneme in self.phoneme_list: ... append(phoneme.copy())` (lines
82-83): every element must be a reference to a list cell; a fresh copy of
each cell is allocated and the references to the copies are returned in
order. -/
def copyPairs : Heap → List PyVal → Option (Heap × List PyVal)
  | h, [] => some (h, [])
  | h, PyVal.ref a :: restRefs =>
    match h[a]? with
    | some (HObj.plist es) =>
      let al := halloc h (HObj.plist es)
      match copyPairs al.1 restRefs with
      | some (h2, nrefs) => some (h2, PyVal.ref al.2 :: nrefs)
      | none => none
    | _ => none
  | _, _ :: _ => none

/-- The loop over `self.art_seg_list` (lines 87-92): for each articulation
segment dict, fresh copies of its `phonemes` and `boundaries` list cells and
a fresh dict referencing them are allocated (the source allocates the empty
dict first and then assigns the copied lists into it; the model allocates
the two list copies and then the completed dict, which reaches the same
final cells). -/
def copyArtSegs : Heap → List PyVal → Option (Heap × List PyVal)
  | h, [] => some (h, [])
  | h, PyVal.ref a :: restRefs =>
    match h[a]? with
    | some (HObj.artseg ty pa ba) =>
      match h[pa]?, h[ba]? with
      | some (HObj.plist ps), some (HObj.plist bs) =>
        let al1 := halloc h (HObj.plist ps)
        let al2 := halloc al1.1 (HObj.plist bs)
        let al3 := halloc al2.1 (HObj.artseg ty al1.2 al2.2)
        match copyArtSegs al3.1 restRefs with
        | some (h4, nrefs) => some (h4, PyVal.ref al3.2 :: nrefs)
        | none => none
      | _, _ => none
    | _ => none
  | _, _ :: _ => none

/-- `SegmentInfo.copy` (lines 76-94) over the heap. -/
def copySeg (h : Heap) (o : PySegObj) : Option (Heap × PySegObj) :=
  match h[o.phoneme_list]? with
  | some (HObj.plist prefs) =>
    match copyPairs h prefs with
    | some (h1, nprefs) =>
      let alp := halloc h1 (HObj.plist nprefs)
      match alp.1[o.art_seg_list]? with
      | some (HObj.plist arefs) =>
        match copyArtSegs alp.1 arefs with
        | some (h2, narefs) =>
          let ala := halloc h2 (HObj.plist narefs)
          some (ala.1, ⟨o.wav_offset, o.wav_cutoff, alp.2, ala.2⟩)
        | none => none
      | _ => none
    | none => none
  | _ => none

/-- Lines 99-102: relabel the first element of each pair cell of the copy, in
place; the write happens only when the name is in `old_phonemes`. -/
def replaceInPairs (old new : List String) : Heap → List PyVal → Option Heap
  | h, [] => some h
  | h, PyVal.ref a :: restRefs =>
    match h[a]? with
    | some (HObj.plist (PyVal.s name :: tl)) =>
      let h2 :=
        if name ∈ old then
          h.set a (HObj.plist (PyVal.s (new.getD (old.indexOf name) name) :: tl))
        else h
      replaceInPairs old new h2 restRefs
    | _ => none
  | _, _ :: _ => none

/-- Lines 104-108: for each articulation-segment dict of the copy, relabel
the atoms of its `phonemes` list cell in place (the source writes each
matching index of the same private cell; its net effect on the cell is the
element-wise substitution written back once). -/
def replaceInArtSegs (old new : List String) : Heap → List PyVal → Option Heap
  | h, [] => some h
  | h, PyVal.ref a :: restRefs =>
    match h[a]? with
    | some (HObj.artseg _ pa _) =>
      match h[pa]? with
      | some (HObj.plist es) =>
        let es2 := es.map fun v =>
          match v with
          | PyVal.s nm => PyVal.s (if nm ∈ old then new.getD (old.indexOf nm) nm else nm)
          | x => x
        replaceInArtSegs old new (h.set pa (HObj.plist es2)) restRefs
      | _ => none
    | _ => none
  | _, _ :: _ => none

/-- `SegmentInfo.replace_phoneme` (lines 96-110) over the heap: `copy()`,
then the two in-place relabeling loops run on the copy's cells. -/
def replace_phoneme_heap (h : Heap) (o : PySegObj) (old new : List String) :
    Option (Heap × PySegObj) :=
  match copySeg h o with
  | some (h1, no) =>
    match h1[no.phoneme_list]? with
    | some (HObj.plist nprefs) =>
      match replaceInPairs old new h1 nprefs with
      | some h2 =>
        match h2[no.art_seg_list]? with
        | some (HObj.plist narefs) =>
          match replaceInArtSegs old new h2 narefs with
          | some h3 => some (h3, no)
          | none => none
        | _ => none
      | _ => none
    | _ => none
  | none => none

/-- The addresses reachable from a `SegmentInfo` object: its two list
cells, the pair cells referenced from the `phoneme_list` cell, the dict
cells referenced from the `art_seg_list` cell, and each dict's `phonemes`
and `boundaries` cells. -/
def segAddrs (h : Heap) (o : PySegObj) : List ℕ :=
  let pairCells := match h[o.phoneme_list]? with
    | some (HObj.plist es) => refAddrs es
    | _ => []
  let artCells := match h[o.art_seg_list]? with
    | some (HObj.plist es) => refAddrs es
    | _ => []
  let artFields := artCells.flatMap fun a => match h[a]? with
    | some (HObj.artseg _ pa ba) => [pa, ba]
    | _ => []
  o.phoneme_list :: o.art_seg_list :: (pairCells ++ artCells ++ artFields)

/-- The write targets of `replaceInArtSegs`: the `phonemes` cell address of
each referenced dict. -/
def artPaAddrs (h : Heap) (refs : List PyVal) : List ℕ :=
  (refAddrs refs).flatMap fun a => match h[a]? with
    | some (HObj.artseg _ pa _) => [pa]
    | _ => []

/-- A concrete heap for the frame witness: a `SegmentInfo` with one phoneme
pair and one articulation segment. -/
def witnessHeap : Heap :=
  [HObj.plist [PyVal.ref 1],
   HObj.plist [PyVal.s "a", PyVal.q 0, PyVal.q 10],
   HObj.plist [PyVal.ref 3],
   HObj.artseg "vc" 4 5,
   HObj.plist [PyVal.s "a", PyVal.s "k"],
   HObj.plist [PyVal.q 0, PyVal.q 5, PyVal.q 10]]

/-- The object rooted in `witnessHeap`. -/
def witnessObj : PySegObj := ⟨0, 100, 0, 2⟩


/-- The heap produced by `replace_phoneme_heap` on the witness data: the
original six cells followed by the six fresh copies, with the atom `k`
relabeled to `g` in the fresh phonemes cell. -/
def witnessHeapAfter : Heap :=
  witnessHeap ++
    [HObj.plist [PyVal.s "a", PyVal.q 0, PyVal.q 10],
     HObj.plist [PyVal.ref 6],
     HObj.plist [PyVal.s "a", PyVal.s "g"],
     HObj.plist [PyVal.q 0, PyVal.q 5, PyVal.q 10],
     HObj.artseg "vc" 8 9,
     HObj.plist [PyVal.ref 10]]

/-- The object returned by `replace_phoneme_heap` on the witness data. -/
def witnessObjAfter : PySegObj := ⟨0, 100, 7, 11⟩

/-! ## Emitter re-basing (`generate_articulation_files`, lines 340-361) -/

/-- The window padding and time re-basing prelude of
`generate_articulation_files` (src/oto2seg_cvvc.py lines 340-361): returns
`(append_silent_start, time_delta, relative_wav_offset, relative_wav_cutoff)`. -/
def generate_articulation_files_rebase (seg : SegmentInfo) : ℚ × ℚ × ℚ × ℚ :=
  let bleed_time : ℚ := 100
  let append_silent_start : ℚ := 0
  let time_delta : ℚ := 0
  let p :=
    if seg.wav_offset < bleed_time then
      (bleed_time - seg.wav_offset, time_delta + (bleed_time - seg.wav_offset))
    else
      (append_silent_start, -1 * (seg.wav_offset - bleed_time))
  let relative_wav_offset := seg.wav_offset + p.2
  let relative_wav_cutoff := seg.wav_cutoff + p.2
  (p.1, p.2, relative_wav_offset, relative_wav_cutoff)

/-! ## General lemmas about the quantization loops -/

theorem minDurStep_length (bs : List ℚ) (i : ℕ) : (minDurStep bs i).length = bs.length := by
  unfold minDurStep; split <;> simp

theorem foldl_minDurStep_length (l : List ℕ) (acc : List ℚ) :
    (l.foldl minDurStep acc).length = acc.length := by
  induction l generalizing acc with
  | nil => rfl
  | cons i l ih => rw [List.foldl_cons, ih, minDurStep_length]

theorem getD_eq_get (l : List ℚ) (i : ℕ) (h : i < l.length) :
    l.getD i 0 = l.get ⟨i, h⟩ := by
  rw [List.getD_eq_getElem?_getD, List.getElem?_eq_getElem h]
  rfl

theorem minDurPass_invariant (r : List ℚ) (k : ℕ) (hk : k ≤ r.length - 1) :
    ∀ j, ((List.range' 1 k).foldl minDurStep r).getD j 0 =
      if j + 1 ≤ k then minDurSpec r j else r.getD j 0 := by
  induction k with
  | zero => simp
  | succ k ih =>
    intro j
    have hk' : k ≤ r.length - 1 := Nat.le_of_succ_le hk
    have hklen : k + 1 < r.length := by omega
    have hA := ih hk'
    have hAlen : ((List.range' 1 k).foldl minDurStep r).length = r.length :=
      foldl_minDurStep_length _ _
    rw [List.range'_concat, List.foldl_append, List.foldl_cons, List.foldl_nil]
    simp only [one_mul]
    set A := (List.range' 1 k).foldl minDurStep r with hAdef
    have hA1 : A.getD (1 + k) 0 = r.getD (k + 1) 0 := by
      rw [hA (1 + k)]; rw [if_neg (by omega)]; ring_nf
    have hA2 : A.getD (1 + k - 1) 0 = r.getD k 0 := by
      rw [hA (1 + k - 1)]
      have : 1 + k - 1 = k := by omega
      rw [this, if_neg (by omega)]
    unfold minDurStep
    rw [hA1, hA2]
    by_cases hc : r.getD (k + 1) 0 - r.getD k 0 < 10
    · rw [if_pos hc]
      have hset : 1 + k - 1 = k := by omega
      rw [hset]
      by_cases hj : j = k
      · subst hj
        have hjlen : j < A.length := by omega
        rw [List.getD_eq_getElem?_getD, List.getElem?_set_self' , List.getElem?_eq_getElem hjlen]
        · simp only [Option.map_some, Option.getD_some, Function.const_apply]
          rw [if_pos (by omega)]
          unfold minDurSpec
          rw [if_pos ⟨hklen, hc⟩]
      · rw [List.getD_eq_getElem?_getD, List.getElem?_set_ne (by omega), ← List.getD_eq_getElem?_getD]
        rw [hA j]
        by_cases hj2 : j + 1 ≤ k
        · rw [if_pos hj2, if_pos (by omega)]
        · rw [if_neg hj2, if_neg (by omega)]
    · rw [if_neg hc]
      rw [hA j]
      by_cases hj2 : j + 1 ≤ k
      · rw [if_pos hj2, if_pos (by omega)]
      · by_cases hj : j = k
        · subst hj
          rw [if_neg hj2, if_pos (by omega)]
          unfold minDurSpec
          rw [if_neg (by tauto)]
        · rw [if_neg hj2, if_neg (by omega)]

theorem minDurPass_getD (r : List ℚ) (j : ℕ) :
    (minDurPass r).getD j 0 = minDurSpec r j := by
  unfold minDurPass
  rw [minDurPass_invariant r (r.length - 1) le_rfl j]
  by_cases hj : j + 1 ≤ r.length - 1
  · rw [if_pos hj]
  · rw [if_neg hj]
    unfold minDurSpec
    rw [if_neg (by omega)]

theorem roundFrom_length (n : ℕ) (i : ℕ) (l : List ℚ) : (roundFrom n i l).length = l.length := by
  induction l generalizing i with
  | nil => rfl
  | cons b rest ih => simp [roundFrom, ih]

theorem roundFrom_getD (n : ℕ) (i : ℕ) (l : List ℚ) (j : ℕ) (hj : j < l.length) :
    (roundFrom n i l).getD j 0 = roundBoundary n (i + j) (l.getD j 0) := by
  induction l generalizing i j with
  | nil => simp at hj
  | cons b rest ih =>
    cases j with
    | zero => simp [roundFrom]
    | succ j =>
      have hj' : j < rest.length := by simpa using hj
      simp only [roundFrom, List.getD_cons_succ]
      rw [ih (i + 1) j hj']
      ring_nf

theorem floorToSample_mono {a b : ℚ} (h : a ≤ b) : floorToSample a ≤ floorToSample b := by
  unfold floorToSample
  have h2 : (⌊a / 1000 * 44100⌋ : ℚ) ≤ (⌊b / 1000 * 44100⌋ : ℚ) := by
    exact_mod_cast Int.floor_le_floor (by nlinarith)
  nlinarith

theorem floorToSample_le_ceilToSample (a : ℚ) : floorToSample a ≤ ceilToSample a := by
  unfold floorToSample ceilToSample
  have h2 : (⌊a / 1000 * 44100⌋ : ℚ) ≤ (⌈a / 1000 * 44100⌉ : ℚ) := by
    exact_mod_cast Int.floor_le_ceil _
  nlinarith

theorem quantize_boundary_length (bs : List ℚ) :
    (quantize_boundary bs).length = bs.length := by
  unfold quantize_boundary minDurPass
  rw [foldl_minDurStep_length, roundFrom_length]

theorem roundBoundary_eq_floor (n j : ℕ) (b : ℚ) (h : j = 0 ∨ j ≠ n - 1) :
    roundBoundary n j b = floorToSample b := by
  unfold roundBoundary
  rcases h with h | h
  · rw [if_pos h]
  · by_cases h0 : j = 0
    · rw [if_pos h0]
    · rw [if_neg h0, if_neg h]

theorem roundBoundary_eq_ceil (n j : ℕ) (b : ℚ) (h0 : j ≠ 0) (h1 : j = n - 1) :
    roundBoundary n j b = ceilToSample b := by
  unfold roundBoundary
  rw [if_neg h0, if_pos h1]

theorem round_getD_mono (bs : List ℚ)
    (hmono : List.Chain' (· ≤ ·) bs) (j : ℕ) (hj : j + 1 < bs.length) :
    (roundFrom bs.length 0 bs).getD j 0 ≤ (roundFrom bs.length 0 bs).getD (j + 1) 0 := by
  have hj0 : j < bs.length := by omega
  rw [roundFrom_getD _ _ _ j hj0, roundFrom_getD _ _ _ (j+1) hj]
  simp only [Nat.zero_add]
  have hb : bs.getD j 0 ≤ bs.getD (j + 1) 0 := by
    rw [List.chain'_iff_get] at hmono
    have h3 := hmono j (by omega)
    rw [getD_eq_get bs j hj0, getD_eq_get bs (j + 1) hj]
    exact h3
  rw [roundBoundary_eq_floor _ _ _ (Or.inr (by omega))]
  by_cases hj1 : j + 1 = bs.length - 1
  · rw [roundBoundary_eq_ceil _ _ _ (by omega) hj1]
    exact le_trans (floorToSample_mono hb) (floorToSample_le_ceilToSample _)
  · rw [roundBoundary_eq_floor _ _ _ (Or.inr hj1)]
    exact floorToSample_mono hb

theorem quantize_boundary_getD (bs : List ℚ) (j : ℕ) :
    (quantize_boundary bs).getD j 0 = minDurSpec (roundFrom bs.length 0 bs) j :=
  minDurPass_getD _ _

theorem quantize_step_mono (bs : List ℚ) (hmono : List.Chain' (· ≤ ·) bs)
    (j : ℕ) (hj : j + 1 < bs.length) :
    (quantize_boundary bs).getD j 0 ≤ (quantize_boundary bs).getD (j + 1) 0 := by
  have hrlen : (roundFrom bs.length 0 bs).length = bs.length := roundFrom_length _ _ _
  rw [quantize_boundary_getD, quantize_boundary_getD]
  set r := roundFrom bs.length 0 bs with hr
  have hrm : r.getD j 0 ≤ r.getD (j + 1) 0 := round_getD_mono bs hmono j hj
  have hub : minDurSpec r j ≤ r.getD (j + 1) 0 - 10 := by
    unfold minDurSpec
    split
    · exact le_refl _
    · rename_i hcond
      push_neg at hcond
      have := hcond (by omega)
      linarith
  have hlb : r.getD (j + 1) 0 - 10 ≤ minDurSpec r (j + 1) := by
    unfold minDurSpec
    split
    · rename_i hcond
      have : r.getD (j + 1) 0 ≤ r.getD (j + 1 + 1) 0 :=
        round_getD_mono bs hmono (j + 1) (by omega)
      linarith
    · linarith
  linarith

theorem floorToSample_eq_self {q : ℚ} (h : ∃ k : ℤ, q = k * 1000 / 44100) :
    floorToSample q = q := by
  obtain ⟨k, rfl⟩ := h
  unfold floorToSample
  have h1 : (k : ℚ) * 1000 / 44100 / 1000 * 44100 = (k : ℚ) := by
    field_simp
    ring
  rw [h1, Int.floor_intCast]

theorem ceilToSample_eq_self {q : ℚ} (h : ∃ k : ℤ, q = k * 1000 / 44100) :
    ceilToSample q = q := by
  obtain ⟨k, rfl⟩ := h
  unfold ceilToSample
  have h1 : (k : ℚ) * 1000 / 44100 / 1000 * 44100 = (k : ℚ) := by
    field_simp
    ring
  rw [h1, Int.ceil_intCast]

theorem roundFrom_eq_self (n i : ℕ) (l : List ℚ)
    (h : ∀ q ∈ l, ∃ k : ℤ, q = k * 1000 / 44100) : roundFrom n i l = l := by
  induction l generalizing i with
  | nil => rfl
  | cons b rest ih =>
    have hb := h b (by simp)
    have hrest : ∀ q ∈ rest, ∃ k : ℤ, q = k * 1000 / 44100 := fun q hq => h q (by simp [hq])
    simp only [roundFrom, ih (i + 1) hrest]
    unfold roundBoundary
    split
    · rw [floorToSample_eq_self hb]
    · split
      · rw [ceilToSample_eq_self hb]
      · rw [floorToSample_eq_self hb]

/-! ## Claim C1 -/

/-- C1 counterexample: a positive stored cutoff is NOT normalized to
"clip length minus the stored cutoff value": for `wav_length = 100`,
`offset = 10`, relative consonant `5` and stored cutoff `30`, `read_oto`
produces `max(consonant + 0.1, wav_length - offset) = 90`, not
`100 - 30 = 70`; and a non-positive stored cutoff `-80` at `offset = 50` is
clamped to the clip length `100`, not `offset + 80 = 130`. -/
theorem read_oto_cutoff_claim_counterexample :
    (read_oto_line 100 "a" 10 5 30 0 0).cutoff = 90 ∧ ((90 : ℚ) ≠ 100 - 30) ∧
    (read_oto_line 100 "a" 50 0 (-80) 0 0).cutoff = 100 ∧ ((100 : ℚ) ≠ 50 + 80) := by
  refine ⟨by norm_num [read_oto_line], by norm_num, by norm_num [read_oto_line], by norm_num⟩

/-- C1 (amended): for every record read by `read_oto`, a positive stored
cutoff is normalized to the clip length minus the OFFSET (the position whose
distance back from the clip end equals the offset), clamped below by the
absolute consonant position plus 0.1; a non-positive stored cutoff is
normalized to the offset plus the magnitude of the stored value, clamped
above by the clip length. -/
theorem read_oto_cutoff_normalization (wl : ℚ) (a : String) (o c k p v : ℚ) :
    (0 < k → (read_oto_line wl a o c k p v).cutoff =
        max ((read_oto_line wl a o c k p v).consonant + 1/10) (wl - o)) ∧
    (0 < k → wl - o ≤ (read_oto_line wl a o c k p v).cutoff) ∧
    (¬ 0 < k → (read_oto_line wl a o c k p v).cutoff = min wl (o + (-k))) ∧
    (¬ 0 < k → (read_oto_line wl a o c k p v).cutoff ≤ wl) := by
  unfold read_oto_line
  simp only
  refine ⟨fun h => ?_, fun h => ?_, fun h => ?_, fun h => ?_⟩
  · rw [if_pos h]
  · rw [if_pos h]
    exact le_max_right _ _
  · rw [if_neg h]
    ring_nf
  · rw [if_neg h]
    exact min_le_left _ _

/-- Witness for `read_oto_cutoff_normalization` at concrete inputs. -/
theorem read_oto_cutoff_normalization_witness :
    (read_oto_line 100 "a" 10 5 30 0 0).cutoff =
      max ((read_oto_line 100 "a" 10 5 30 0 0).consonant + 1/10) (100 - 10) ∧
    (read_oto_line 100 "a" 50 0 (-80) 0 0).cutoff = min 100 (50 + -(-80 : ℚ)) :=
  ⟨(read_oto_cutoff_normalization 100 "a" 10 5 30 0 0).1 (by norm_num),
   (read_oto_cutoff_normalization 100 "a" 50 0 (-80) 0 0).2.2.1 (by norm_num)⟩

/-! ## Claim C3 -/

/-- C3 counterexample: on the non-decreasing input `[0, 5, 10]` the single
left-to-right minimum-duration pass of `quantize_boundary` leaves an
adjacent gap strictly below 10 ms: step 2 pulls the middle boundary back to
`0` after step 1 had already set the first boundary to `2200/441 - 10`,
re-shrinking the first gap to `2200/441 ≈ 4.99` ms. -/
theorem quantize_min_gap_counterexample :
    List.Chain' (· ≤ ·) ([0, 5, 10] : List ℚ) ∧
    quantize_boundary [0, 5, 10] = [2200/441 - 10, 0, 10] ∧
    (0 : ℚ) - (2200/441 - 10) < 10 := by
  refine ⟨?_, ?_, by norm_num⟩
  · norm_num [List.chain'_cons, List.chain'_singleton]
  · norm_num [quantize_boundary, minDurPass, roundFrom, roundBoundary, minDurStep,
      floorToSample, ceilToSample, List.range']

/-- C3 (amended): for every non-decreasing input boundary sequence,
`quantize_boundary` returns a non-decreasing sequence whose LAST adjacent
gap is at least 10 ms; interior gaps may fall below 10 ms (see
`quantize_min_gap_counterexample`), because the single left-to-right pass
can pull back a boundary that an earlier step had already adjusted. -/
theorem quantize_nondecreasing_and_last_gap (bs : List ℚ)
    (hmono : List.Chain' (· ≤ ·) bs) :
    List.Chain' (· ≤ ·) (quantize_boundary bs) ∧
    (2 ≤ bs.length →
      (quantize_boundary bs).getD (bs.length - 2) 0 + 10 ≤
        (quantize_boundary bs).getD (bs.length - 1) 0) := by
  have hqlen : (quantize_boundary bs).length = bs.length := quantize_boundary_length bs
  have hrlen : (roundFrom bs.length 0 bs).length = bs.length := roundFrom_length _ _ _
  constructor
  · rw [List.chain'_iff_get]
    intro i hi
    have hi1 : i + 1 < bs.length := by omega
    have h := quantize_step_mono bs hmono i hi1
    rw [getD_eq_get _ _ (by omega), getD_eq_get _ _ (by omega)] at h
    exact h
  · intro h2
    rw [quantize_boundary_getD, quantize_boundary_getD]
    set r := roundFrom bs.length 0 bs with hr
    have e1 : bs.length - 2 + 1 = bs.length - 1 := by omega
    have hlast : minDurSpec r (bs.length - 1) = r.getD (bs.length - 1) 0 := by
      unfold minDurSpec
      rw [if_neg]
      intro hcond
      omega
    rw [hlast]
    unfold minDurSpec
    rw [e1]
    by_cases hgap : r.getD (bs.length - 1) 0 - r.getD (bs.length - 2) 0 < 10
    · rw [if_pos ⟨by omega, hgap⟩]
      linarith
    · rw [if_neg (by intro hcond; exact hgap hcond.2)]
      have : r.getD (bs.length - 2) 0 ≤ r.getD (bs.length - 1) 0 := by
        have := round_getD_mono bs hmono (bs.length - 2) (by omega)
        rwa [e1] at this
      linarith

/-- Witness for `quantize_nondecreasing_and_last_gap` at `[0, 20, 40]`. -/
theorem quantize_nondecreasing_and_last_gap_witness :
    List.Chain' (· ≤ ·) (quantize_boundary [0, 20, 40]) ∧
    (2 ≤ ([0, 20, 40] : List ℚ).length →
      (quantize_boundary [0, 20, 40]).getD (([0, 20, 40] : List ℚ).length - 2) 0 + 10 ≤
        (quantize_boundary [0, 20, 40]).getD (([0, 20, 40] : List ℚ).length - 1) 0) :=
  quantize_nondecreasing_and_last_gap [0, 20, 40]
    (by norm_num [List.chain'_cons, List.chain'_singleton])

/-! ## Claim C8 -/

/-- C8 counterexample: `quantize_boundary [0, 5, 10]` is a possible output
of `quantize_boundary`, yet applying `quantize_boundary` to it again changes
it (the re-application pulls the first boundary further back to `-10`), so
`quantize` is not idempotent on its own outputs. -/
theorem quantize_not_idempotent_on_output :
    quantize_boundary (quantize_boundary [0, 5, 10]) ≠ quantize_boundary [0, 5, 10] := by
  have h1 : quantize_boundary [0, 5, 10] = [2200/441 - 10, 0, 10] := by
    norm_num [quantize_boundary, minDurPass, roundFrom, roundBoundary, minDurStep,
      floorToSample, ceilToSample, List.range']
  rw [h1]
  have h2 : quantize_boundary [2200/441 - 10, 0, 10] = [-10, 0, 10] := by
    norm_num [quantize_boundary, minDurPass, roundFrom, roundBoundary, minDurStep,
      floorToSample, ceilToSample, List.range']
  rw [h2]
  intro h
  simp only [List.cons.injEq] at h
  obtain ⟨h0, -⟩ := h
  norm_num at h0

/-- C8 (amended): `quantize_boundary` is idempotent on every sequence that
lies on the 44100 Hz sample grid and whose every adjacent gap is at least
10 ms. Every output of `quantize_boundary` lies on the grid, but outputs
with an interior gap below 10 ms exist (`quantize_not_idempotent_on_output`)
and on those a second application moves boundaries again. -/
theorem quantize_idempotent_on_grid_spaced (bs : List ℚ)
    (hgrid : ∀ q ∈ bs, ∃ k : ℤ, q = k * 1000 / 44100)
    (hgap : List.Chain' (fun a b : ℚ => a + 10 ≤ b) bs) :
    quantize_boundary bs = bs := by
  have hround : roundFrom bs.length 0 bs = bs := roundFrom_eq_self _ _ _ hgrid
  have hqlen : (quantize_boundary bs).length = bs.length := quantize_boundary_length bs
  apply List.ext_getElem hqlen
  intro i h1 h2
  have hgd : (quantize_boundary bs).getD i 0 = bs.getD i 0 := by
    rw [quantize_boundary_getD, hround]
    unfold minDurSpec
    rw [if_neg]
    intro hcond
    have hle : bs.getD i 0 + 10 ≤ bs.getD (i + 1) 0 := by
      rw [List.chain'_iff_get] at hgap
      have h3 := hgap i (by omega)
      have e1 := getD_eq_get bs i (show i < bs.length by omega)
      have e2 := getD_eq_get bs (i + 1) (show i + 1 < bs.length by omega)
      linarith [h3, e1, e2]
    linarith [hcond.2]
  rw [getD_eq_get _ _ h1, getD_eq_get _ _ h2] at hgd
  simpa using hgd

/-- Witness for `quantize_idempotent_on_grid_spaced` at `[0, 10]`
(both on the sample grid, gap exactly 10 ms). -/
theorem quantize_idempotent_on_grid_spaced_witness :
    quantize_boundary [0, 10] = [0, 10] := by
  apply quantize_idempotent_on_grid_spaced
  · intro q hq
    simp only [List.mem_cons, List.mem_singleton] at hq
    rcases hq with rfl | rfl | h
    · exact ⟨0, by norm_num⟩
    · exact ⟨441, by norm_num⟩
    · simp at h
  · norm_num [List.chain'_cons, List.chain'_singleton]

/-! ## Claim C10 -/

/-- C10: for every emitted segment, the emitter's re-basing
(`generate_articulation_files`, lines 340-361) yields
`time_delta = 100 - wav_offset` in both the silence-insertion branch
(`wav_offset < 100`) and the slicing branch (`wav_offset ≥ 100`), so the
relative segment start `wav_offset + time_delta` is exactly the 100 ms bleed
margin. -/
theorem emit_rebase_relative_start_eq_bleed (seg : SegmentInfo) :
    (generate_articulation_files_rebase seg).2.1 = 100 - seg.wav_offset ∧
    (generate_articulation_files_rebase seg).2.2.1 = 100 := by
  unfold generate_articulation_files_rebase
  by_cases h : seg.wav_offset < 100
  · simp only [if_pos h]
    constructor <;> ring
  · simp only [if_neg h]
    constructor <;> ring

theorem range_map_getD_fst {α β : Type} (d : α) (f : α → β) :
    ∀ l : List α, (List.range l.length).map (fun i => f (l.getD i d)) = l.map f := by
  intro l
  induction l with
  | nil => rfl
  | cons x xs ih =>
    simp only [List.length_cons, List.range_succ_eq_map, List.map_cons, List.map_map,
      List.getD_cons_zero, Function.comp_def, List.getD_cons_succ]
    rw [ih]

theorem range_map_getD_pair {α β : Type} (d : α) (g : α → α → β) :
    ∀ l : List α,
      (List.range (l.length - 1)).map (fun i => g (l.getD i d) (l.getD (i + 1) d)) =
        (l.zip l.tail).map (fun pq => g pq.1 pq.2) := by
  intro l
  induction l with
  | nil => rfl
  | cons x xs ih =>
    cases xs with
    | nil => rfl
    | cons y rest =>
      have ih2 := ih
      simp only [List.length_cons, Nat.add_sub_cancel] at ih2
      simp only [List.length_cons, Nat.add_sub_cancel, List.range_succ_eq_map, List.map_cons,
        List.map_map, List.getD_cons_zero, List.getD_cons_succ, Function.comp_def,
        List.zip_cons_cons, List.tail_cons, List.map_cons]
      simp only [List.tail_cons, List.getD_cons_succ] at ih2
      rw [ih2]

/-! ## Claim C6 -/

/-- C6 counterexample: for an emitted three-atom segment `a k o` whose
middle atom `k` is not a vowel, the CVVC transition-list artifact emits the
two bracketed pairs `[a k]` and `[k o]`: no bracketed triple `[a k o]`
appears among its lines (triple grouping exists only in the separate
VCV-mode converter). -/
theorem trans_file_no_triple_counterexample :
    generate_articulation_trans_file [("a", 0, 100), ("k", 100, 200), ("o", 200, 300)] =
      String.intercalate "\n" ["a k o", "[a k]", "[k o]"] ∧
    "[a k o]" ∉ (["a k o", "[a k]", "[k o]"] : List String) := by
  refine ⟨rfl, by decide⟩

/-- C6 (amended): the CVVC converter's transition-list artifact is the
space-joined phoneme sequence followed by one bracketed pair line `[p1 p2]`
for every adjacent position of the segment's phoneme list, with no triple
lines; the bracketed-triple rule for a non-vowel middle atom belongs to the
separate VCV-mode converter only. -/
theorem trans_file_pairs_only (pl : List (String × ℚ × ℚ)) :
    generate_articulation_trans_file pl =
      String.intercalate "\n"
        (String.intercalate " " (pl.map Prod.fst) ::
          (pl.zip pl.tail).map (fun pq => "[" ++ pq.1.1 ++ " " ++ pq.2.1 ++ "]")) := by
  unfold generate_articulation_trans_file
  rw [range_map_getD_fst ("", (0:ℚ), (0:ℚ)) Prod.fst pl]
  rw [range_map_getD_pair ("", (0:ℚ), (0:ℚ)) (fun p q => "[" ++ p.1 ++ " " ++ q.1 ++ "]") pl]
  rfl

/-! ## Claim C7 -/

/-- C7 counterexample: a `cv` unit whose consonant (`k`) is plosive and
whose anchors satisfy `overlap > offset` gets its consonant start placed at
the overlap anchor (10), not at the midpoint `offset + (overlap-offset)/2`
(5): the plosive rule takes precedence over the midpoint rule. -/
theorem cv_plosive_counterexample :
    (0 : ℚ) < 10 ∧
    ((generate_articulation_segment_info_cv "k" "a"
        ⟨"k a", 0, 50, 100, 40, 10⟩).phoneme_list.getD 0 ("", 0, 0)).2.1 = 10 ∧
    (10 : ℚ) ≠ 0 + ((10 - 0) / 2) := by
  refine ⟨by norm_num, rfl, by norm_num⟩

/-- C7 (amended): for every `cv`-type unit whose consonant atom is NOT in
the plosive set and whose anchors satisfy `overlap > offset`, boundary
derivation places the consonant start exactly at
`offset + (overlap - offset) / 2`. -/
theorem cv_consonant_start_midpoint (p0 p1 : String) (oto : OtoInfo)
    (hp : p0 ∉ plosive_consonant_list) (hov : oto.offset < oto.overlap) :
    (generate_articulation_segment_info_cv p0 p1 oto).phoneme_list =
      [(p0, oto.offset + ((oto.overlap - oto.offset) / 2), oto.preutterance),
       (p1, oto.preutterance, oto.consonant)] := by
  unfold generate_articulation_segment_info_cv
  simp only [gt_iff_lt, if_neg hp, if_pos hov]

/-- Witness for `cv_consonant_start_midpoint`: the non-plosive consonant `s`
with offset 0 and overlap 10 starts at the midpoint 5. -/
theorem cv_consonant_start_midpoint_witness :
    "s" ∉ plosive_consonant_list ∧ ((0 : ℚ) < 10) ∧
    (generate_articulation_segment_info_cv "s" "a"
        ⟨"s a", 0, 50, 100, 40, 10⟩).phoneme_list =
      [("s", 0 + ((10 - 0) / 2), 40), ("a", 40, 50)] :=
  ⟨by decide, by norm_num,
   cv_consonant_start_midpoint "s" "a" ⟨"s a", 0, 50, 100, 40, 10⟩ (by decide) (by norm_num)⟩

/-! ## Claim C2 -/

theorem substAtom_singleton (x y s : String) : substAtom [x] [y] s = if s = x then y else s := by
  unfold substAtom
  by_cases h : s = x
  · subst h
    simp
  · simp [h]

/-- C2 counterexample: for the missing key `a k` with donor `i k` (found
through a vowel-variant group containing `a` and `i`), the re-emitted
segment keeps the donor's vowel atom `i`: `replace_phoneme` is called with
only the substitute consonant, so the vowel atom is never relabeled to the
requested `a` even though the donor's vowel differs. -/
theorem completion_vowel_not_relabeled_counterexample :
    generate_missing_vc [["a", "i"]] [] [("i k", donorSegIK)] "a k" = some donorSegIK ∧
    donorSegIK.phoneme_list.map Prod.fst = ["i", "k"] ∧
    (pySplit1 "a k").1 = "a" ∧ (pySplit1 "i k").1 = "i" ∧ ("i" : String) ≠ "a" := by
  refine ⟨rfl, rfl, rfl, rfl, by decide⟩

/-- C2 (amended): when the completion engine finds a substitute entry for a
missing VC key, the re-emitted segment is an independent copy of the donor
in which ONLY the substitute consonant atom is relabeled to the requested
consonant, across both the flat phoneme/time list and every articulation
segment's atom list; the vowel atom is never relabeled, so when the donor's
vowel differs from the requested one the copy keeps the donor's vowel. -/
theorem completion_relabels_consonant_only (vtbl ctbl : List (List String))
    (m : List (String × SegmentInfo)) (vc_name : String) (out : SegmentInfo)
    (h : generate_missing_vc vtbl ctbl m vc_name = some out) :
    ∃ e ∈ m, e.1 = find_alternative_vc vtbl ctbl vc_name (m.map Prod.fst) ∧
      out = e.2.replace_phoneme [(pySplit1 e.1).2] [(pySplit1 vc_name).2] ∧
      out.phoneme_list = e.2.phoneme_list.map (fun p =>
        (if p.1 = (pySplit1 e.1).2 then (pySplit1 vc_name).2 else p.1, p.2.1, p.2.2)) ∧
      out.art_seg_list = e.2.art_seg_list.map (fun a_ =>
        { type := a_.type
          phonemes := a_.phonemes.map
            (fun q => if q = (pySplit1 e.1).2 then (pySplit1 vc_name).2 else q)
          boundaries := a_.boundaries }) := by
  unfold generate_missing_vc at h
  by_cases halt : find_alternative_vc vtbl ctbl vc_name (m.map Prod.fst) ≠ ""
  · rw [if_pos halt] at h
    cases hfind : m.find? (fun e => e.1 = find_alternative_vc vtbl ctbl vc_name (m.map Prod.fst)) with
    | none => rw [hfind] at h; exact absurd h (by simp)
    | some e =>
      rw [hfind] at h
      have hmem : e ∈ m := List.mem_of_find?_eq_some hfind
      have hkey : e.1 = find_alternative_vc vtbl ctbl vc_name (m.map Prod.fst) := by
        have := List.find?_some hfind
        simpa using this
      refine ⟨e, hmem, hkey, ?_, ?_, ?_⟩
      · cases h
        rw [hkey]
      · cases h
        unfold SegmentInfo.replace_phoneme
        simp only [hkey]
        refine List.map_congr_left ?_
        intro p hp
        rw [substAtom_singleton]
      · cases h
        unfold SegmentInfo.replace_phoneme
        simp only [hkey]
        refine List.map_congr_left ?_
        intro a_ ha
        congr 1
        refine List.map_congr_left ?_
        intro q hq
        rw [substAtom_singleton]
  · rw [if_neg halt] at h
    exact absurd h (by simp)

/-- Witness for `completion_relabels_consonant_only` at the donor map
`[("i k", donorSegIK)]` and missing key `a k`. -/
theorem completion_relabels_consonant_only_witness :
    ∃ e ∈ [("i k", donorSegIK)],
      e.1 = find_alternative_vc [["a", "i"]] [] "a k" ([("i k", donorSegIK)].map Prod.fst) ∧
      donorSegIK = e.2.replace_phoneme [(pySplit1 e.1).2] [(pySplit1 "a k").2] ∧
      donorSegIK.phoneme_list = e.2.phoneme_list.map (fun p =>
        (if p.1 = (pySplit1 e.1).2 then (pySplit1 "a k").2 else p.1, p.2.1, p.2.2)) ∧
      donorSegIK.art_seg_list = e.2.art_seg_list.map (fun a_ =>
        { type := a_.type
          phonemes := a_.phonemes.map
            (fun q => if q = (pySplit1 e.1).2 then (pySplit1 "a k").2 else q)
          boundaries := a_.boundaries }) :=
  completion_relabels_consonant_only [["a", "i"]] [] [("i k", donorSegIK)] "a k" donorSegIK rfl

/-! ## Claim C4 -/

theorem data_mk (l : List Char) : (String.mk l).data = l := rfl

theorem isVowelChar2_ne_dash {c : Char} (h : isVowelChar2 c = true) : c ≠ '-' := by
  intro hc
  subst hc
  exact absurd h (by decide)

/-- C4 counterexample: the V-C-V-shaped alias `a ka` (a vowel token followed
by a consonant-plus-vowel token) does not yield a failure: it matches the
unimplemented V-C-V branch (`pass  # TODO`, lines 250-251), and the function
returns the `ret` object with its `type`, `phoneme_info_list` and
`phoneme_list` attributes never assigned — a partial result. -/
theorem classify_vcv_partial_counterexample :
    matchVCV "a ka" = true ∧
    get_oto_entry_phoneme_info [] "a ka" = .ok (some ⟨none, none, none, none⟩) := by
  refine ⟨by decide, rfl⟩

/-- C4 (amended): every alias string matching none of the classifier's
grammar branches yields a failure (a raised exception), never a partial
result; but an alias of the V-C-V shape does match a branch — the
unimplemented V-C-V branch — and produces a partial result whose type and
atom fields are unset (see `classify_vcv_partial_counterexample`). -/
theorem classify_no_branch_fails (m : List JPhonemeMapItem) (alias0 : String)
    (h : matchesNoBranch alias0 = true) :
    ∃ msg, get_oto_entry_phoneme_info m alias0 = .error msg := by
  unfold get_oto_entry_phoneme_info
  unfold matchesNoBranch at h
  cases hd : (if matchAllDigits alias0 then "" else alias0).data with
  | nil =>
    refine ⟨"IndexError: string index out of range", ?_⟩
    simp only [hd]
  | cons c0 ctail =>
    simp only [hd] at h
    simp only [Bool.and_eq_true, Bool.not_eq_true', Bool.not_eq_true] at h
    obtain ⟨⟨⟨⟨⟨⟨h1, h2⟩, h3⟩, h4⟩, h5⟩, h6⟩, h7⟩ := h
    have h1' : ¬ (c0 = '-') := of_decide_eq_false h1
    have h2' : ¬ ((c0 :: ctail).getLast? = some '-') := of_decide_eq_false h2
    refine ⟨"[Unknown Type] Invalid phoneme info", ?_⟩
    simp only [hd, if_neg h1', if_neg h2', h3, h4, h5, h6, h7, Bool.false_eq_true, if_false]

/-- Witness for `classify_no_branch_fails`: the alias `!` matches no branch
and raises. -/
theorem classify_no_branch_fails_witness :
    matchesNoBranch "!" = true ∧ ∃ msg, get_oto_entry_phoneme_info [] "!" = .error msg :=
  ⟨by decide, classify_no_branch_fails [] "!" (by decide)⟩

/-! ## Claim C5 -/

/-- C5 counterexample: for the vc alias `N gy` whose resolved vowel atom is
the nasal-coda placeholder and whose consonant atom is the palatalized velar
`g'`, the first atom of the result is rewritten to the palatalized velar
nasal `N'` — an output that is none of the four nasals of the claim's table
(alveolar `n`, labial `m`, velar `N`, palatal `J`). -/
theorem vc_nasal_palatalized_counterexample :
    get_oto_entry_phoneme_info nasalTestMap "N gy" =
      .ok (some ⟨some "vc",
        some [⟨"ん", "N", ["N'"], "vowel"⟩, ⟨"", "gy", ["g'"], "consonant"⟩],
        some ["N'", "g'"], none⟩) ∧
    ("N'" : String) ≠ "n" ∧ ("N'" : String) ≠ "m" ∧ ("N'" : String) ≠ "N" ∧
    ("N'" : String) ≠ "J" := by
  refine ⟨rfl, by decide, by decide, by decide, by decide⟩

/-- C5 (amended): for every alias classified as `vc`, the first atom of the
result is `vc_nasal_variant` of the resolved vowel and consonant atoms, and
the consonant entry is left unchanged; when the vowel atom is the nasal-coda
placeholder, the table maps alveolar consonants to the alveolar nasal `n`,
labial consonants to the labial nasal `m`, the plain velar consonants `g`,
`k` to the velar nasal `N`, the palatal consonant `J` to the palatal nasal
`J`, and the palatalized velar consonants `g'`, `k'` to the distinct
palatalized velar nasal `N'`; a consonant in none of the table's rows leaves
the placeholder unchanged, and a vowel atom other than the placeholder is
never rewritten. -/
theorem vc_nasal_place_resolution (m : List JPhonemeMapItem) (c1 : Char) (rest : List Char)
    (vi ci : JPhonemeMapItem) (vp cp : String) (vrest crest : List String)
    (hvv : matchVV (String.mk (c1 :: ' ' :: rest)) = false)
    (hnv : matchNV (String.mk (c1 :: ' ' :: rest)) = false)
    (hvcv : matchVCV (String.mk (c1 :: ' ' :: rest)) = false)
    (hvc : matchVC (String.mk (c1 :: ' ' :: rest)) = true)
    (hna : matchNAiueo (String.mk (c1 :: ' ' :: rest)) = false)
    (hvi : get_romaji_info m (String.mk [c1]) = some vi)
    (hci : get_romaji_info m (String.mk rest) = some ci)
    (hvip : vi.phoneme = vp :: vrest)
    (hcip : ci.phoneme = cp :: crest) :
    (get_oto_entry_phoneme_info m (String.mk (c1 :: ' ' :: rest)) =
      .ok (some ⟨some "vc",
        some [{ vi with phoneme := [vc_nasal_variant vp cp] }, ci],
        some (vc_nasal_variant vp cp :: ci.phoneme), none⟩)) ∧
    (cp ∈ ["n", "d", "d'", "t", "t'", "4", "4'", "dz", "dZ", "ts", "tS"] →
      vc_nasal_variant "N\\" cp = "n") ∧
    (cp ∈ ["m", "m'", "p", "p'", "b", "b'"] → vc_nasal_variant "N\\" cp = "m") ∧
    (cp ∈ ["g", "k"] → vc_nasal_variant "N\\" cp = "N") ∧
    (cp = "J" → vc_nasal_variant "N\\" cp = "J") ∧
    (cp ∈ ["g'", "k'"] → vc_nasal_variant "N\\" cp = "N'") ∧
    (cp ∉ ["n", "d", "d'", "t", "t'", "4", "4'", "dz", "dZ", "ts", "tS",
        "m", "m'", "p", "p'", "b", "b'", "g", "k", "J", "g'", "k'"] →
      vc_nasal_variant "N\\" cp = "N\\") ∧
    (vp ≠ "N\\" → vc_nasal_variant vp cp = vp) := by
  have hvcparts : isVowelChar2 c1 = true ∧ rest.isEmpty = false ∧ rest.all Char.isAlpha = true := by
    unfold matchVC at hvc
    simp only [data_mk] at hvc
    simp only [Bool.and_eq_true, Bool.not_eq_true', beq_iff_eq] at hvc
    tauto
  obtain ⟨hvow, hne, hal⟩ := hvcparts
  have hdig : matchAllDigits (String.mk (c1 :: ' ' :: rest)) = false := by
    unfold matchAllDigits
    simp only [data_mk, List.all_cons]
    simp [Char.isDigit]
  have hc1 : ¬ (c1 = '-') := isVowelChar2_ne_dash hvow
  have hrestne : rest ≠ [] := by
    intro hr
    rw [hr] at hne
    simp at hne
  have hlast : ¬ ((c1 :: ' ' :: rest).getLast? = some '-') := by
    cases rest with
    | nil => exact absurd rfl hrestne
    | cons r0 rest' =>
      rw [List.getLast?_cons_cons, List.getLast?_cons_cons]
      intro heq
      have hmem : '-' ∈ (r0 :: rest') := by
        obtain ⟨hne2, heq2⟩ := List.mem_getLast?_eq_getLast (l := r0 :: rest') (x := '-')
          ((Option.mem_def).2 heq)
        rw [heq2]
        exact List.getLast_mem hne2
      have halpha : ('-').isAlpha = true := (List.all_eq_true.mp hal) _ hmem
      exact absurd halpha (by decide)
  have hcond : (matchVC (String.mk (c1 :: ' ' :: rest)) &&
      !matchNAiueo (String.mk (c1 :: ' ' :: rest))) = true := by
    rw [hvc, hna]
    rfl
  refine ⟨?_, ?_, ?_, ?_, ?_, ?_, ?_, ?_⟩
  · unfold get_oto_entry_phoneme_info
    simp only [hdig, Bool.false_eq_true, if_false, data_mk]
    rw [if_neg hc1, if_neg hlast, hvv, hnv, hvcv, hcond]
    simp only [Bool.false_eq_true, if_false, if_true]
    rw [hvi, hci]
    simp only [hvip, hcip, List.singleton_append]
  · intro hcp
    fin_cases hcp <;> rfl
  · intro hcp
    fin_cases hcp <;> rfl
  · intro hcp
    fin_cases hcp <;> rfl
  · intro hcp
    rw [hcp]
    rfl
  · intro hcp
    fin_cases hcp <;> rfl
  · intro hnotin
    unfold vc_nasal_variant
    rw [if_pos rfl,
      if_neg (fun hm => hnotin (by fin_cases hm <;> decide)),
      if_neg (fun hm => hnotin (by fin_cases hm <;> decide)),
      if_neg (fun hm => hnotin (by fin_cases hm <;> decide)),
      if_neg (fun hm => hnotin (by rw [hm]; decide)),
      if_neg (fun hm => hnotin (by fin_cases hm <;> decide))]
  · intro hvp
    unfold vc_nasal_variant
    rw [if_neg hvp]

/-- Witness for `vc_nasal_place_resolution` at the alias `N k` over
`nasalTestMap`: the velar consonant `k` rewrites the placeholder to the
velar nasal. -/
theorem vc_nasal_place_resolution_witness :
    get_oto_entry_phoneme_info nasalTestMap (String.mk ['N', ' ', 'k']) =
      .ok (some ⟨some "vc",
        some [{ (⟨"ん", "N", ["N\\"], "vowel"⟩ : JPhonemeMapItem) with
                  phoneme := [vc_nasal_variant "N\\" "k"] },
              ⟨"", "k", ["k"], "consonant"⟩],
        some (vc_nasal_variant "N\\" "k" :: ["k"]), none⟩) :=
  (vc_nasal_place_resolution nasalTestMap 'N' ['k']
    ⟨"ん", "N", ["N\\"], "vowel"⟩ ⟨"", "k", ["k"], "consonant"⟩ "N\\" "k" [] []
    (by decide) (by decide) (by decide) (by decide) (by decide) rfl rfl rfl rfl).1

/-! ## Claim C9 -/

theorem copyPairs_spec (refs : List PyVal) : ∀ (h h1 : Heap) (nrefs : List PyVal),
    copyPairs h refs = some (h1, nrefs) →
    (∃ t, h1 = h ++ t) ∧
    (∀ r ∈ nrefs, ∃ a, r = PyVal.ref a ∧ h.length ≤ a ∧ a < h1.length ∧
      ∃ es, h1[a]? = some (HObj.plist es)) := by
  induction refs with
  | nil =>
    intro h h1 nrefs hrun
    simp only [copyPairs, Option.some.injEq, Prod.mk.injEq] at hrun
    obtain ⟨rfl, rfl⟩ := hrun
    exact ⟨⟨[], by simp⟩, by simp⟩
  | cons r rest ih =>
    intro h h1 nrefs hrun
    cases r with
    | s v => exact absurd hrun (by simp [copyPairs])
    | q v => exact absurd hrun (by simp [copyPairs])
    | ref a =>
      simp only [copyPairs, halloc] at hrun
      split at hrun
      case _ es hcell =>
        split at hrun
        case _ h2 nrefs' hrec =>
          simp only [Option.some.injEq, Prod.mk.injEq] at hrun
          obtain ⟨rfl, rfl⟩ := hrun
          obtain ⟨⟨t, rfl⟩, hprops⟩ := ih (h ++ [HObj.plist es]) _ _ hrec
          constructor
          · exact ⟨[HObj.plist es] ++ t, by simp⟩
          · intro r hr
            rcases List.mem_cons.mp hr with rfl | hr'
            · refine ⟨h.length, rfl, le_rfl, by simp, es, ?_⟩
              rw [List.getElem?_append_left (show h.length < (h ++ [HObj.plist es]).length by simp)]
              exact List.getElem?_concat_length h (HObj.plist es)
            · obtain ⟨a', hra', hle', hlt', es', hcell'⟩ := hprops r hr'
              refine ⟨a', hra', ?_, hlt', es', hcell'⟩
              simp at hle'
              omega
        case _ hrec => exact absurd hrun (by simp)
      case _ x hne => exact absurd hrun (by simp)

theorem copyArtSegs_spec (refs : List PyVal) : ∀ (h h1 : Heap) (nrefs : List PyVal),
    copyArtSegs h refs = some (h1, nrefs) →
    (∃ t, h1 = h ++ t) ∧
    (∀ r ∈ nrefs, ∃ a ty pa ba, r = PyVal.ref a ∧ h.length ≤ a ∧ a < h1.length ∧
      h1[a]? = some (HObj.artseg ty pa ba) ∧
      h.length ≤ pa ∧ pa < h1.length ∧ h.length ≤ ba ∧ ba < h1.length ∧
      (∀ r' ∈ nrefs, ∀ a', r' = PyVal.ref a' → pa ≠ a' ∧ ba ≠ a')) := by
  induction refs with
  | nil =>
    intro h h1 nrefs hrun
    simp only [copyArtSegs, Option.some.injEq, Prod.mk.injEq] at hrun
    obtain ⟨rfl, rfl⟩ := hrun
    exact ⟨⟨[], by simp⟩, by simp⟩
  | cons r rest ih =>
    intro h h1 nrefs hrun
    cases r with
    | s v => exact absurd hrun (by simp [copyArtSegs])
    | q v => exact absurd hrun (by simp [copyArtSegs])
    | ref a =>
      simp only [copyArtSegs, halloc] at hrun
      simp only [List.length_append, List.length_cons, List.length_nil, Nat.add_zero,
        Nat.zero_add] at hrun
      split at hrun
      case _ ty pa ba hcell =>
        split at hrun
        case _ ps bs hpa hba =>
          split at hrun
          case _ h4 nrefs' hrec =>
            simp only [Option.some.injEq, Prod.mk.injEq] at hrun
            obtain ⟨rfl, rfl⟩ := hrun
            have hlen3 : (h ++ [HObj.plist ps] ++ [HObj.plist bs] ++
                [HObj.artseg ty h.length (h.length + 1)]).length = h.length + 3 := by simp
            have harts : (h ++ [HObj.plist ps] ++ [HObj.plist bs] ++
                [HObj.artseg ty h.length (h.length + 1)])[h.length + 2]? =
                some (HObj.artseg ty h.length (h.length + 1)) := by
              have : (h ++ [HObj.plist ps] ++ [HObj.plist bs]).length = h.length + 2 := by simp
              rw [← this]
              exact List.getElem?_concat_length _ _
            obtain ⟨⟨t, ht⟩, hprops⟩ := ih _ _ _ hrec
            have hlen4 : h.length + 3 ≤ h4.length := by
              rw [ht, List.length_append, hlen3]
              omega
            constructor
            · refine ⟨[HObj.plist ps] ++ [HObj.plist bs] ++
                [HObj.artseg ty h.length (h.length + 1)] ++ t, ?_⟩
              rw [ht]
              simp
            · intro r hr
              rcases List.mem_cons.mp hr with rfl | hr'
              · refine ⟨h.length + 2, ty, h.length, h.length + 1, rfl, by omega, by omega,
                  ?_, le_rfl, by omega, by omega, by omega, ?_⟩
                · rw [ht, List.getElem?_append_left (by rw [hlen3]; omega)]
                  exact harts
                · intro r' hr' a' hra'
                  rcases List.mem_cons.mp hr' with rfl | hr''
                  · cases hra'
                    omega
                  · obtain ⟨a2, ty2, pa2, ba2, hra2, hle2, _, _, _, _, _, _, _⟩ :=
                      hprops r' hr''
                    rw [hra'] at hra2
                    cases hra2
                    rw [hlen3] at hle2
                    omega
              · obtain ⟨a2, ty2, pa2, ba2, hra2, hle2, hlt2, hcell2, hpale, hpalt, hbale,
                  hbalt, hdist⟩ := hprops r hr'
                rw [hlen3] at hle2 hpale hbale
                refine ⟨a2, ty2, pa2, ba2, hra2, by omega, hlt2, hcell2, by omega, hpalt,
                  by omega, hbalt, ?_⟩
                intro r' hr' a' hra'
                rcases List.mem_cons.mp hr' with rfl | hr''
                · cases hra'
                  omega
                · exact hdist r' hr'' a' hra'
          case _ hrec => exact absurd hrun (by simp)
        case _ hne => exact absurd hrun (by simp)
      case _ hne => exact absurd hrun (by simp)

theorem refAddrs_cons_ref (a : ℕ) (vs : List PyVal) :
    refAddrs (PyVal.ref a :: vs) = a :: refAddrs vs := rfl

theorem mem_refAddrs {a : ℕ} {vs : List PyVal} :
    a ∈ refAddrs vs ↔ PyVal.ref a ∈ vs := by
  unfold refAddrs
  rw [List.mem_filterMap]
  constructor
  · rintro ⟨v, hv, hfa⟩
    cases v with
    | s _ => simp at hfa
    | q _ => simp at hfa
    | ref b =>
      simp only [Option.some.injEq] at hfa
      subst hfa
      exact hv
  · intro hv
    exact ⟨PyVal.ref a, hv, rfl⟩

theorem replaceInPairs_spec (old new : List String) (refs : List PyVal) :
    ∀ (h h' : Heap), replaceInPairs old new h refs = some h' →
    h'.length = h.length ∧ ∀ b, b ∉ refAddrs refs → h'[b]? = h[b]? := by
  induction refs with
  | nil =>
    intro h h' hrun
    simp only [replaceInPairs, Option.some.injEq] at hrun
    subst hrun
    exact ⟨rfl, fun b _ => rfl⟩
  | cons r rest ih =>
    intro h h' hrun
    cases r with
    | s v => exact absurd hrun (by simp [replaceInPairs])
    | q v => exact absurd hrun (by simp [replaceInPairs])
    | ref a =>
      simp only [replaceInPairs] at hrun
      split at hrun
      case _ name tl hcell =>
        obtain ⟨hlen, hpres⟩ := ih _ _ hrun
        have hlen2 : (if name ∈ old then
            h.set a (HObj.plist (PyVal.s (new.getD (old.indexOf name) name) :: tl))
            else h).length = h.length := by
          split <;> simp
        constructor
        · rw [hlen, hlen2]
        · intro b hb
          rw [refAddrs_cons_ref, List.mem_cons] at hb
          push_neg at hb
          rw [hpres b hb.2]
          split
          · exact List.getElem?_set_ne (by omega)
          · rfl
      case _ hne => exact absurd hrun (by simp)

theorem artPaAddrs_cons_ref (h : Heap) (a : ℕ) (vs : List PyVal) :
    artPaAddrs h (PyVal.ref a :: vs) =
      (match h[a]? with
        | some (HObj.artseg _ pa _) => [pa]
        | _ => []) ++ artPaAddrs h vs := by
  unfold artPaAddrs
  rw [refAddrs_cons_ref, List.flatMap_cons]

theorem flatMap_pa_congr (h h2 : Heap) : ∀ (l : List ℕ), (∀ a ∈ l, h2[a]? = h[a]?) →
    (l.flatMap fun a => match h2[a]? with | some (HObj.artseg _ pa _) => [pa] | _ => []) =
    (l.flatMap fun a => match h[a]? with | some (HObj.artseg _ pa _) => [pa] | _ => []) := by
  intro l
  induction l with
  | nil => intro _; rfl
  | cons x xs ih =>
    intro hc
    rw [List.flatMap_cons, List.flatMap_cons, hc x (by simp),
      ih (fun a ha => hc a (by simp [ha]))]

theorem artPaAddrs_congr (h h2 : Heap) (refs : List PyVal)
    (hc : ∀ a ∈ refAddrs refs, h2[a]? = h[a]?) :
    artPaAddrs h2 refs = artPaAddrs h refs := by
  unfold artPaAddrs
  exact flatMap_pa_congr h h2 (refAddrs refs) hc

theorem mem_artPaAddrs {h : Heap} {x : ℕ} {refs : List PyVal}
    (hx : x ∈ artPaAddrs h refs) :
    ∃ a ∈ refAddrs refs, ∃ ty ba, h[a]? = some (HObj.artseg ty x ba) := by
  unfold artPaAddrs at hx
  rw [List.mem_flatMap] at hx
  obtain ⟨a, ha, hmatch⟩ := hx
  cases hobj : h[a]? with
  | none => rw [hobj] at hmatch; simp at hmatch
  | some obj =>
    rw [hobj] at hmatch
    cases obj with
    | plist es => simp at hmatch
    | artseg ty pa ba =>
      simp only [List.mem_singleton] at hmatch
      subst hmatch
      exact ⟨a, ha, ty, ba, hobj⟩

theorem replaceInArtSegs_spec (old new : List String) (n M : ℕ) (refs : List PyVal) :
    ∀ (h h' : Heap), replaceInArtSegs old new h refs = some h' →
    (∀ r ∈ refs, ∃ a, r = PyVal.ref a ∧ ∃ ty pa ba,
      h[a]? = some (HObj.artseg ty pa ba) ∧ n ≤ pa ∧ pa < M ∧ n ≤ ba ∧
      (∀ r' ∈ refs, ∀ a', r' = PyVal.ref a' → pa ≠ a')) →
    h'.length = h.length ∧
    (∀ b, b < n ∨ M ≤ b → h'[b]? = h[b]?) ∧
    (∀ b, b ∉ artPaAddrs h refs → h'[b]? = h[b]?) ∧
    (∀ r ∈ refs, ∃ a, r = PyVal.ref a ∧ ∃ ty pa ba,
      h'[a]? = some (HObj.artseg ty pa ba) ∧ n ≤ pa ∧ n ≤ ba) := by
  induction refs with
  | nil =>
    intro h h' hrun _
    simp only [replaceInArtSegs, Option.some.injEq] at hrun
    subst hrun
    exact ⟨rfl, fun b _ => rfl, fun b _ => rfl, by simp⟩
  | cons r rest ih =>
    intro h h' hrun hinv
    obtain ⟨a, hra, ty, pa, ba, hcell, hnpa, hpaM, hnba, hdist⟩ :=
      hinv r (List.mem_cons_self r rest)
    subst hra
    simp only [replaceInArtSegs] at hrun
    split at hrun
    case _ ty2 pa2 ba2 hcell2 =>
      rw [hcell] at hcell2
      injection hcell2 with hobj
      injection hobj with hty hpa hba
      subst hty
      subst hpa
      subst hba
      split at hrun
      case _ es heqp =>
        set h2 := h.set pa (HObj.plist (es.map fun v =>
          match v with
          | PyVal.s nm => PyVal.s (if nm ∈ old then new.getD (old.indexOf nm) nm else nm)
          | x => x)) with hh2
        have hpane : ∀ r' ∈ rest, ∀ a', r' = PyVal.ref a' → pa ≠ a' := fun r' hr' a' hra' =>
          hdist r' (List.mem_cons_of_mem _ hr') a' hra'
        have hpanea : pa ≠ a := hdist (PyVal.ref a) (List.mem_cons_self _ _) a rfl
        have hdictpres : ∀ a' ∈ refAddrs rest, h2[a']? = h[a']? := by
          intro a' ha'
          have hne : pa ≠ a' := hpane (PyVal.ref a') (mem_refAddrs.mp ha') a' rfl
          exact List.getElem?_set_ne (by omega)
        have hinv2 : ∀ r' ∈ rest, ∃ a', r' = PyVal.ref a' ∧ ∃ ty' pa' ba',
            h2[a']? = some (HObj.artseg ty' pa' ba') ∧ n ≤ pa' ∧ pa' < M ∧ n ≤ ba' ∧
            (∀ r'' ∈ rest, ∀ a'', r'' = PyVal.ref a'' → pa' ≠ a'') := by
          intro r' hr'
          obtain ⟨a', hra', ty', pa', ba', hcell', h1', h2', h3', hdist'⟩ :=
            hinv r' (List.mem_cons_of_mem _ hr')
          refine ⟨a', hra', ty', pa', ba', ?_, h1', h2', h3', ?_⟩
          · rw [hdictpres a' (by rw [hra'] at hr'; exact mem_refAddrs.mpr hr'), hcell']
          · intro r'' hr'' a'' hra''
            exact hdist' r'' (List.mem_cons_of_mem _ hr'') a'' hra''
        obtain ⟨ihlen, ihnm, ihpa, ihdicts⟩ := ih h2 h' hrun hinv2
        have hsetlen : h2.length = h.length := by simp [hh2]
        have hpapres : artPaAddrs h2 rest = artPaAddrs h rest :=
          artPaAddrs_congr h h2 rest hdictpres
        have hanotpa : a ∉ artPaAddrs h rest := by
          intro hmem
          obtain ⟨a', ha', ty', ba', hcell'⟩ := mem_artPaAddrs hmem
          obtain ⟨a'', hra'', ty3, pa3, ba3, hcell3, _, _, _, hdist3⟩ :=
            hinv (PyVal.ref a') (List.mem_cons_of_mem _ (mem_refAddrs.mp ha'))
          injection hra'' with haa
          subst haa
          rw [hcell'] at hcell3
          injection hcell3 with hobj3
          injection hobj3 with e1 e2 e3
          subst e2
          exact hdist3 (PyVal.ref a) (List.mem_cons_self _ _) a rfl rfl
        refine ⟨by rw [ihlen, hsetlen], ?_, ?_, ?_⟩
        · intro b hb
          rw [ihnm b hb]
          exact List.getElem?_set_ne (by omega)
        · intro b hb
          rw [artPaAddrs_cons_ref, hcell, List.mem_append, List.mem_singleton] at hb
          push_neg at hb
          rw [ihpa b (by rw [hpapres]; exact hb.2)]
          have hbpa : b ≠ pa := hb.1
          exact List.getElem?_set_ne (by omega)
        · intro r' hr'
          rcases List.mem_cons.mp hr' with rfl | hr''
          · refine ⟨a, rfl, ty, pa, ba, ?_, hnpa, hnba⟩
            rw [ihpa a (by rw [hpapres]; exact hanotpa)]
            rw [hh2]
            rw [List.getElem?_set_ne (by omega)]
            exact hcell
          · exact ihdicts r' hr''
      case _ hne => exact absurd hrun (by simp)
    case _ hne => exact absurd hrun (by simp)

/-- C9: for every well-rooted `SegmentInfo` object graph (all reachable
cells live), `replace_phoneme` returns a new `SegmentInfo` and leaves every
pre-existing heap cell — in particular every cell of the receiver's
phoneme/time list and articulation segment records — unchanged, and the
result's reachable cells are all freshly allocated, disjoint from the
receiver's; the two float attributes are copied unchanged. -/
theorem replace_phoneme_heap_frame (h : Heap) (o : PySegObj) (old new : List String)
    (h' : Heap) (o' : PySegObj)
    (hwf : ∀ a ∈ segAddrs h o, a < h.length)
    (hrun : replace_phoneme_heap h o old new = some (h', o')) :
    (∀ a, a < h.length → h'[a]? = h[a]?) ∧
    (∀ a ∈ segAddrs h o, h'[a]? = h[a]?) ∧
    (∀ a ∈ segAddrs h' o', h.length ≤ a) ∧
    (∀ a ∈ segAddrs h' o', a ∉ segAddrs h o) ∧
    o'.wav_offset = o.wav_offset ∧ o'.wav_cutoff = o.wav_cutoff := by
  unfold replace_phoneme_heap at hrun
  split at hrun
  case _ h1 no hcopy =>
    unfold copySeg at hcopy
    split at hcopy
    case _ prefs hpl =>
      split at hcopy
      case _ hp nprefs hcp =>
        simp only [halloc] at hcopy
        split at hcopy
        case _ arefs hal =>
          split at hcopy
          case _ hac narefs hca =>
            simp only [Option.some.injEq, Prod.mk.injEq] at hcopy
            obtain ⟨rfl, rfl⟩ := hcopy
            obtain ⟨⟨t1, ht1⟩, hprops1⟩ := copyPairs_spec prefs h hp nprefs hcp
            obtain ⟨⟨t2, ht2⟩, hprops2⟩ :=
              copyArtSegs_spec arefs (hp ++ [HObj.plist nprefs]) hac narefs hca
            have hhlen : h.length ≤ hp.length := by rw [ht1]; simp
            have hN1 : (hp ++ [HObj.plist nprefs]).length = hp.length + 1 := by simp
            have hN1hac : hp.length + 1 ≤ hac.length := by
              rw [ht2, List.length_append, hN1]
              omega
            have hnprefs_lt : ∀ b ∈ refAddrs nprefs, h.length ≤ b ∧ b < hp.length := by
              intro b hb
              obtain ⟨a2, hra2, hle2, hlt2, _⟩ := hprops1 _ (mem_refAddrs.mp hb)
              injection hra2 with hba
              subst hba
              exact ⟨hle2, hlt2⟩
            have hpl1 : (hac ++ [HObj.plist narefs])[hp.length]? = some (HObj.plist nprefs) := by
              rw [List.getElem?_append_left (by omega), ht2,
                List.getElem?_append_left (by omega)]
              exact List.getElem?_concat_length _ _
            simp only [hpl1] at hrun
            split at hrun
            case _ h2 hrp =>
              obtain ⟨hlen3, hpres3⟩ := replaceInPairs_spec old new nprefs _ _ hrp
              have hlen1 : (hac ++ [HObj.plist narefs]).length = hac.length + 1 := by simp
              have hal1 : (hac ++ [HObj.plist narefs])[hac.length]? =
                  some (HObj.plist narefs) := List.getElem?_concat_length _ _
              have hal2 : h2[hac.length]? = some (HObj.plist narefs) := by
                rw [hpres3 _ (by intro hmem; exact absurd ((hnprefs_lt _ hmem).2) (by omega))]
                exact hal1
              simp only [hal2] at hrun
              split at hrun
              case _ h3 hras =>
                simp only [Option.some.injEq, Prod.mk.injEq] at hrun
                obtain ⟨rfl, rfl⟩ := hrun
                have hinv4 : ∀ r ∈ narefs, ∃ a, r = PyVal.ref a ∧ ∃ ty pa ba,
                    h2[a]? = some (HObj.artseg ty pa ba) ∧ hp.length + 1 ≤ pa ∧
                    pa < hac.length ∧ hp.length + 1 ≤ ba ∧
                    (∀ r' ∈ narefs, ∀ a', r' = PyVal.ref a' → pa ≠ a') := by
                  intro r hr
                  obtain ⟨a2, ty2, pa2, ba2, hra2, hle2, hlt2, hcell2, hple, hplt, hble,
                    hblt, hdist2⟩ := hprops2 r hr
                  rw [hN1] at hle2 hple hble
                  refine ⟨a2, hra2, ty2, pa2, ba2, ?_, hple, hplt, hble, fun r' hr' a' hra' => (hdist2 r' hr' a' hra').1⟩
                  rw [hpres3 _ (by intro hmem; exact absurd ((hnprefs_lt _ hmem).2) (by omega))]
                  rw [List.getElem?_append_left (by omega)]
                  exact hcell2
                obtain ⟨hlen4, hnm4, hpa4, hdicts4⟩ :=
                  replaceInArtSegs_spec old new (hp.length + 1) hac.length narefs _ _ hras hinv4
                have hprefix : ∀ a, a < h.length → (hac ++ [HObj.plist narefs])[a]? = h[a]? := by
                  intro a ha
                  rw [List.getElem?_append_left (show a < hac.length by omega), ht2,
                    List.getElem?_append_left
                      (show a < (hp ++ [HObj.plist nprefs]).length by rw [hN1]; omega),
                    List.getElem?_append_left (show a < hp.length by omega), ht1,
                    List.getElem?_append_left (show a < h.length by omega)]
                have part1 : ∀ a, a < h.length → h3[a]? = h[a]? := by
                  intro a ha
                  rw [hnm4 a (Or.inl (by omega))]
                  rw [hpres3 a (by intro hmem; exact absurd ((hnprefs_lt _ hmem).1) (by omega))]
                  exact hprefix a ha
                have hph3 : h3[hp.length]? = some (HObj.plist nprefs) := by
                  rw [hnm4 _ (Or.inl (by omega))]
                  rw [hpres3 _ (by intro hmem; exact absurd ((hnprefs_lt _ hmem).2) (by omega))]
                  exact hpl1
                have hah3 : h3[hac.length]? = some (HObj.plist narefs) := by
                  rw [hnm4 _ (Or.inr (by omega))]
                  exact hal2
                have part3 : ∀ a ∈ segAddrs h3 ⟨o.wav_offset, o.wav_cutoff, hp.length,
                    hac.length⟩, h.length ≤ a := by
                  intro a ha
                  simp only [segAddrs, hph3, hah3, List.mem_cons] at ha
                  rcases ha with rfl | rfl | ha
                  · omega
                  · omega
                  · rw [List.mem_append, List.mem_append] at ha
                    rcases ha with (ha | ha) | ha
                    · exact (hnprefs_lt a ha).1
                    · obtain ⟨a2, ty2, pa2, ba2, hra2, hle2, _⟩ :=
                        hprops2 _ (mem_refAddrs.mp ha)
                      injection hra2 with hba
                      subst hba
                      rw [hN1] at hle2
                      omega
                    · rw [List.mem_flatMap] at ha
                      obtain ⟨a2, ha2, hmem2⟩ := ha
                      obtain ⟨a3, hra3, ty3, pa3, ba3, hcell3, hple3, hble3⟩ :=
                        hdicts4 _ (mem_refAddrs.mp ha2)
                      injection hra3 with hba3
                      subst hba3
                      rw [hcell3] at hmem2
                      simp only [List.mem_cons, List.mem_singleton] at hmem2
                      rcases hmem2 with rfl | rfl | hfalse
                      · omega
                      · omega
                      · simp at hfalse
                refine ⟨part1, ?_, part3, ?_, rfl, rfl⟩
                · intro a ha
                  exact part1 a (hwf a ha)
                · intro a ha hmem
                  exact absurd (hwf a hmem) (by have := part3 a ha; omega)
              case _ hne => exact absurd hrun (by simp)
            case _ hne => exact absurd hrun (by simp)
          case _ hne => exact absurd hcopy (by simp)
        case _ hne => exact absurd hcopy (by simp)
      case _ hne => exact absurd hcopy (by simp)
    case _ hne => exact absurd hcopy (by simp)
  case _ hne => exact absurd hrun (by simp)

/-- Witness for `replace_phoneme_heap_frame` on a concrete six-cell heap,
relabeling `k` to `g`. -/
theorem replace_phoneme_heap_frame_witness :
    (∀ a ∈ segAddrs witnessHeap witnessObj,
      witnessHeapAfter[a]? = witnessHeap[a]?) ∧
    (∀ a ∈ segAddrs witnessHeapAfter witnessObjAfter,
      a ∉ segAddrs witnessHeap witnessObj) :=
  have happ := replace_phoneme_heap_frame witnessHeap witnessObj ["k"] ["g"]
    witnessHeapAfter witnessObjAfter (by decide) rfl
  ⟨happ.2.1, happ.2.2.2.1⟩

end Oto2Seg
